import Mathlib

/-!
Verification development for the `erl_parse` repository: a shallow embedding
of the transactional token reader (`src/parser.rs`), the expect/match
primitives (`src/traits/expect.rs`), the two-phase expression disambiguation
(`src/cst/mod.rs`) and the generic grammar combinators
(`src/cst/primitives.rs`), together with theorems settling the spec claims.
-/

namespace Erl

/-- Symbol values, mirroring `erl_tokenize::values::Symbol` (the subset of the
closed enum that the parser code and the claims mention, plus a few neutral
members standing for the remaining variants). -/
inductive Symbol where
  | openBrace | closeBrace | openParen | closeParen | openSquare | closeSquare
  | sharp | colon | doubleColon | semicolon | comma
  | doubleVerticalBar | verticalBar | matchEq | slash | dot | plus | hyphen
  | rightArrow | question
  deriving DecidableEq, Repr

/-- Keyword values, mirroring `erl_tokenize::values::Keyword` (subset; `kw`
prefix because several variants collide with Lean keywords). -/
inductive Keyword where
  | kwBegin | kwCatch | kwWhen | kwEnd | kwCase | kwIf | kwOf | kwFun
  | kwTry | kwReceive | kwAfter
  deriving DecidableEq, Repr

/-- Lexical tokens, mirroring `erl_tokenize::LexicalToken`: one of
atom/char/float/integer/string/variable/keyword/symbol, each carrying its
literal value and its start/end source position (positions as `Nat` offsets).
`var` stands for the `Variable` variant (Lean keyword clash); the float value
is carried as an opaque numeral since no claim depends on float comparison. -/
inductive Token where
  | atom (v : String) (s e : Nat)
  | char (v : Char) (s e : Nat)
  | float (v : Nat) (s e : Nat)
  | integer (v : Nat) (s e : Nat)
  | str (v : String) (s e : Nat)
  | var (v : String) (s e : Nat)
  | keyword (v : Keyword) (s e : Nat)
  | symbol (v : Symbol) (s e : Nat)
  deriving DecidableEq, Repr

/-- `LexicalToken::as_atom_token().is_some()` — whether a token is an atom. -/
def Token.isAtom : Token → Bool
  | .atom _ _ _ => true
  | _ => false

/-- The tokens reaching the final `_ => LeftKind::Literal` arm of
`LeftKind::guess` (src/cst/mod.rs:89): atom, char, float, integer or string
(symbol, keyword and variable tokens are matched by the earlier arms). -/
def Token.isLiteral : Token → Bool
  | .atom _ _ _ => true
  | .char _ _ _ => true
  | .float _ _ _ => true
  | .integer _ _ _ => true
  | .str _ _ _ => true
  | _ => false

/-- A literal value carried by an `Expect` comparison, used to record the
expected/actual pair that `track_assert_eq!` puts into the error report
(mirrors the `Debug`-formatted values of `src/traits/expect.rs`). -/
inductive ExpVal where
  | sym (v : Symbol)
  | kw (v : Keyword)
  | atomV (v : String)
  | intV (v : Nat)
  | varV (v : String)
  | strV (v : String)
  | charV (v : Char)
  deriving DecidableEq, Repr

/-- Error kinds, mirroring `ErrorKind` in `src/error.rs`. -/
inductive ErrorKind where
  | invalidInput
  | unexpectedToken (t : Token)
  | unexpectedEos
  | other
  | tokenizeError
  | preprocessorError
  deriving DecidableEq, Repr

/-- An error: the `ErrorKind` plus the actual/expected values that a failed
`track_assert_eq!` in an `Expect` impl records for diagnostics (`none` for
errors that are not value mismatches).  Mirrors `Error` in `src/error.rs`,
a `TrackableError<ErrorKind>` whose history carries the assertion message. -/
structure PError where
  kind : ErrorKind
  vals : Option (ExpVal × ExpVal) := none
  deriving DecidableEq, Repr

/-- Modelled from the spec: the Token Source / `TokenRead` contract (§6,
§4.1) — a pull-based token supplier with `read_token` and
`unread_token`/`push_back`; the `TokenRead` trait definition is outside
`src/`.  `pending` holds pushed-back tokens (front = next to be read);
`source` is the remaining fresh stream. -/
structure Reader where
  pending : List Token
  source : List Token
  deriving DecidableEq, Repr

/-- The token sequence a consumer would observe by repeated reads. -/
def Reader.stream (r : Reader) : List Token :=
  r.pending ++ r.source

/-- Modelled from the spec: `TokenRead::read_token` — pending tokens are
replayed first, then fresh tokens; an empty stream fails `UnexpectedEos`. -/
def Reader.readToken (r : Reader) : Except PError (Token × Reader) :=
  match r.pending with
  | t :: rest => .ok (t, { r with pending := rest })
  | [] =>
    match r.source with
    | t :: rest => .ok (t, { pending := [], source := rest })
    | [] => .error { kind := .unexpectedEos }

/-- Modelled from the spec: `TokenRead::unread_token` / `push_back` —
returns one token to the front of the pending stream. -/
def Reader.unreadToken (t : Token) (r : Reader) : Reader :=
  { r with pending := t :: r.pending }

/-- `for t in ts { reader.unread_token(t) }` — unread a list of tokens in
order (used by `abort_transaction`, which iterates a buffer reversed). -/
def Reader.unreadAll (ts : List Token) (r : Reader) : Reader :=
  ts.foldl (fun r t => r.unreadToken t) r

/-- `Parser` from `src/parser.rs`: a reader plus the stack of transaction
buffers (`transactions: Vec<Vec<LexicalToken>>`).  The Rust `Vec` pushes and
pops at the end; here the list head is the innermost (most recently opened)
buffer, and each buffer lists its tokens in consumption order. -/
structure Parser where
  reader : Reader
  transactions : List (List Token)
  deriving DecidableEq, Repr

/-- A parse computation over `Parser` state: Rust's `&mut self` methods
returning `Result<P>` become state-passing functions that return the
(possibly failed) result together with the final state. -/
def ParserM (α : Type) : Type :=
  Parser → Except PError α × Parser

/-- The token sequence observable by subsequent reads of the parser. -/
def Parser.stream (s : Parser) : List Token :=
  s.reader.stream

/-- The tokens held by a stack of transaction buffers, ordered
outermost-first (the order in which cascading aborts would replay them). -/
def stackTokens : List (List Token) → List Token
  | [] => []
  | b :: rest => stackTokens rest ++ b

/-- The virtual stream: the token sequence that would be observable if every
open transaction aborted — buffered tokens (outermost first) followed by the
pending/fresh stream.  This is the spec §3 "recoverable concatenation of all
token reads" invariant object. -/
def Parser.virtualStream (s : Parser) : List Token :=
  stackTokens s.transactions ++ s.stream

/-- `Parser::next_token` (src/parser.rs:83-93): read a token from the
reader; if a transaction is open, also append it to the innermost buffer.
(`Parser::read_token` as called by `src/cst/mod.rs` resolves to this.) -/
def Parser.nextToken : ParserM Token := fun s =>
  match s.reader.readToken with
  | .error e => (.error e, s)
  | .ok (t, r) =>
    match s.transactions with
    | [] => (.ok t, { reader := r, transactions := [] })
    | b :: rest => (.ok t, { reader := r, transactions := (b ++ [t]) :: rest })

/-- `Parser::start_transaction` (src/parser.rs:95-97): push an empty buffer. -/
def Parser.startTransaction (s : Parser) : Parser :=
  { s with transactions := [] :: s.transactions }

/-- `Parser::commit_transaction` (src/parser.rs:98-103): pop the innermost
buffer and append its contents onto the parent buffer, or discard it when it
was the outermost.  (Rust `unwrap`s the pop; the empty-stack case is
unreachable through the public API and modelled as a no-op.) -/
def Parser.commitTransaction (s : Parser) : Parser :=
  match s.transactions with
  | [] => s
  | b :: rest =>
    match rest with
    | [] => { s with transactions := [] }
    | b₂ :: rest₂ => { s with transactions := (b₂ ++ b) :: rest₂ }

/-- `Parser::abort_transaction` (src/parser.rs:104-109): pop the innermost
buffer and unread its tokens in reverse consumption order.  (Rust `unwrap`s
the pop; the empty-stack case is unreachable and modelled as a no-op.) -/
def Parser.abortTransaction (s : Parser) : Parser :=
  match s.transactions with
  | [] => s
  | b :: rest => { reader := s.reader.unreadAll b.reverse, transactions := rest }

/-- `Parser::peek` (src/parser.rs:52-60): run `f` inside a transaction that
is aborted regardless of `f`'s outcome; `f`'s result is returned unchanged. -/
def Parser.peek (f : ParserM α) : ParserM α := fun s =>
  let (result, s₁) := f s.startTransaction
  (result, s₁.abortTransaction)

/-- `Parser::transaction` (src/parser.rs:61-73): run `f` inside a
transaction, committing when `f` succeeds and aborting when it fails. -/
def Parser.transaction (f : ParserM α) : ParserM α := fun s =>
  let (result, s₁) := f s.startTransaction
  match result with
  | .ok a => (.ok a, s₁.commitTransaction)
  | .error e => (.error e, s₁.abortTransaction)

/-- The nested speculative operations of the spec's backtracking invariant,
as they drive the `Parser`: a primitive token read (`Parser::next_token`),
sequencing, a begin/…/abort block (the state trace of a `peek`, and of a
`transaction` whose body failed), and a begin/…/commit block (a
`transaction` whose body succeeded). -/
inductive Op where
  | read : Op
  | seq : Op → Op → Op
  | abortedBlock : Op → Op
  | committedBlock : Op → Op

/-- Run an operation tree against a parser, keeping only the state (results
of reads are irrelevant for the order invariant). -/
def runOp : Op → Parser → Parser
  | .read, s => (Parser.nextToken s).2
  | .seq a b, s => runOp b (runOp a s)
  | .abortedBlock p, s => (runOp p s.startTransaction).abortTransaction
  | .committedBlock p, s => (runOp p s.startTransaction).commitTransaction

-- Expect/match primitives ------------------------------------------------------

/-- One token kind together with its `Expect` impl (`src/traits/expect.rs`):
which tokens parse as this kind (`proj`), the kind-specific value equality
used by `expect` (`eqv`), and the injection of a value into the diagnostic
payload recorded on mismatch (`inj`). -/
structure TokenClass (V : Type) where
  proj : Token → Option V
  eqv : V → V → Bool
  inj : V → ExpVal

/-- `impl Expect for KeywordToken` (src/traits/expect.rs:47-53): exact
keyword enum equality. -/
def keywordClass : TokenClass Keyword where
  proj := fun t => match t with | .keyword v _ _ => some v | _ => none
  eqv := fun a b => a = b
  inj := .kw

/-- `impl Expect for SymbolToken` (src/traits/expect.rs:61-67): exact symbol
enum equality. -/
def symbolClass : TokenClass Symbol where
  proj := fun t => match t with | .symbol v _ _ => some v | _ => none
  eqv := fun a b => a = b
  inj := .sym

/-- `impl Expect for AtomToken` (src/traits/expect.rs:15-21): exact string
equality on the atom text. -/
def atomClass : TokenClass String where
  proj := fun t => match t with | .atom v _ _ => some v | _ => none
  eqv := fun a b => a = b
  inj := .atomV

/-- `impl Expect for IntegerToken` (src/traits/expect.rs:40-46): exact
big-integer equality. -/
def integerClass : TokenClass Nat where
  proj := fun t => match t with | .integer v _ _ => some v | _ => none
  eqv := fun a b => a = b
  inj := .intV

/-- `impl Expect for VariableToken` (src/traits/expect.rs:68-74): exact
string equality on the variable name. -/
def variableClass : TokenClass String where
  proj := fun t => match t with | .var v _ _ => some v | _ => none
  eqv := fun a b => a = b
  inj := .varV

/-- Modelled from the spec: the per-token-kind `Parse` impls (the generic
`parser.parse::<P>()` for a token type, defined outside `src/`) — §4.2:
"parses the next token as `TokenKind`", failing `UnexpectedToken` when the
next token is of a different kind.  Goes through `Parser::next_token`, so the
consumed token is recorded in the innermost open transaction buffer. -/
def parseClass (K : TokenClass V) : ParserM (Token × V) := fun s =>
  match Parser.nextToken s with
  | (.error e, s₁) => (.error e, s₁)
  | (.ok t, s₁) =>
    match K.proj t with
    | some v => (.ok (t, v), s₁)
    | none => (.error { kind := .unexpectedToken t }, s₁)

/-- `Expect::expect` (src/traits/expect.rs): `track_assert_eq!(self.value(),
expected, ErrorKind::InvalidInput)` — succeed when the carried value equals
the expected one, otherwise fail `InvalidInput` recording the actual and
expected values. -/
def expectValue (K : TokenClass V) (actual expected : V) : Except PError Unit :=
  if K.eqv actual expected then .ok ()
  else .error { kind := .invalidInput
                vals := some (K.inj actual, K.inj expected) }

/-- The closure passed by `Parser::expect` to `transaction`
(src/parser.rs:29-33): parse the token, compare its value, return it. -/
def Parser.expectInner (K : TokenClass V) (expected : V) : ParserM Token :=
  fun s =>
  match parseClass K s with
  | (.error e, s₁) => (.error e, s₁)
  | (.ok (t, v), s₁) =>
    match expectValue K v expected with
    | .ok _ => (.ok t, s₁)
    | .error e => (.error e, s₁)

/-- `Parser::expect` (src/parser.rs:28-34): run the parse-and-compare
closure inside a transaction. -/
def Parser.expect (K : TokenClass V) (expected : V) : ParserM Token :=
  Parser.transaction (Parser.expectInner K expected)

/-- The candidate loop of `Parser::expect_any` (src/parser.rs:37-45):
iterate the candidates, remembering the latest mismatch error, and stop with
no error on the first match.  Returns the final `last_error`. -/
def expectAnyLoop (K : TokenClass V) (v : V) :
    Option PError → List V → Option PError
  | acc, [] => acc
  | _, c :: rest =>
    match expectValue K v c with
    | .error e => expectAnyLoop K v (some e) rest
    | .ok _ => none

/-- `Parser::expect_any` (src/parser.rs:35-51): parse one token (note: not
inside a transaction), then try each candidate in order. -/
def Parser.expectAny (K : TokenClass V) (expected : List V) : ParserM Token :=
  fun s =>
  match parseClass K s with
  | (.error e, s₁) => (.error e, s₁)
  | (.ok (t, v), s₁) =>
    match expectAnyLoop K v none expected with
    | some e => (.error e, s₁)
    | none => (.ok t, s₁)

-- Disambiguation (src/cst/mod.rs) ----------------------------------------------

/-- `RightKind` (src/cst/mod.rs:12-17). -/
inductive RightKind where
  | localCall
  | remoteCall
  | none
  deriving DecidableEq, Repr

/-- `RightKind::guess` (src/cst/mod.rs:18-34): read one token; an
open-paren symbol means local call, a colon symbol means remote call,
anything else (other symbols, other tokens, or a read failure) means no
call.  Total: never fails. -/
def RightKind.guess : Parser → RightKind × Parser := fun s =>
  match Parser.nextToken s with
  | (.ok t, s₁) =>
    match t with
    | .symbol v _ _ =>
      (match v with
       | .openParen => RightKind.localCall
       | .colon => RightKind.remoteCall
       | _ => RightKind.none, s₁)
    | _ => (RightKind.none, s₁)
  | (.error _, s₁) => (RightKind.none, s₁)

/-- `LeftKind` (src/cst/mod.rs:36-48); `variableShape`/`catchShape` stand
for the `Variable`/`Catch` variants (Lean keyword clashes). -/
inductive LeftKind where
  | literal
  | variableShape
  | tuple
  | map
  | record
  | list
  | listComprehension
  | block
  | parenthesized
  | catchShape
  deriving DecidableEq, Repr

/-- `LeftKind::guess` (src/cst/mod.rs:49-92), parameterized by the
speculative element parse `parser.parse::<U>()` (only its success is
inspected, so it is carried as a `ParserM Unit`). -/
def LeftKind.guess (pU : ParserM Unit) : ParserM LeftKind := fun s =>
  match Parser.nextToken s with
  | (.error e, s₁) => (.error e, s₁)
  | (.ok t, s₁) =>
    match t with
    | .symbol v ps pe =>
      match v with
      | .openBrace => (.ok .tuple, s₁)
      | .openParen => (.ok .parenthesized, s₁)
      | .openSquare =>
        match pU s₁ with
        | (.ok _, s₂) =>
          match Parser.expect symbolClass .doubleVerticalBar s₂ with
          | (.ok _, s₃) => (.ok .listComprehension, s₃)
          | (.error _, s₃) => (.ok .list, s₃)
        | (.error _, s₂) => (.ok .list, s₂)
      | .sharp =>
        match Parser.nextToken s₁ with
        | (.error e, s₂) => (.error e, s₂)
        | (.ok t₂, s₂) =>
          if t₂.isAtom then (.ok .record, s₂) else (.ok .map, s₂)
      | _ => (.error { kind := .unexpectedToken (.symbol v ps pe) }, s₁)
    | .keyword v ps pe =>
      match v with
      | .kwBegin => (.ok .block, s₁)
      | .kwCatch => (.ok .catchShape, s₁)
      | _ => (.error { kind := .unexpectedToken (.keyword v ps pe) }, s₁)
    | .var _ _ _ => (.ok .variableShape, s₁)
    | _ => (.ok .literal, s₁)

/-- The Phase-2 peek in `Expr::parse` (src/cst/mod.rs:128-130):
`parser.peek(|parser| Ok(RightKind::guess(parser)))` — the body always
returns `Ok`, so the `.expect("Never fails")` cannot panic and the result is
a plain `RightKind`. -/
def Expr.peekRightKind : Parser → RightKind × Parser := fun s =>
  let (k, s₁) := RightKind.guess s.startTransaction
  (k, s₁.abortTransaction)

/-- The three possible outcomes of Phase-2 wrapping in `Expr::parse`:
the primary stands alone, or becomes the head of a local/remote call node
(`Expr::LocalCall`/`Expr::RemoteCall`). -/
inductive CallWrap (α β γ : Type) where
  | plain : α → CallWrap α β γ
  | localCall : β → CallWrap α β γ
  | remoteCall : γ → CallWrap α β γ
  deriving DecidableEq, Repr

/-- The Phase-2 dispatch of `Expr::parse` (src/cst/mod.rs:128-135),
parameterized by the committing tail parses
(`parser.parse_left_recur(expr)` for the local and remote call cases). -/
def Expr.parsePhase2 (localTail : α → ParserM β) (remoteTail : α → ParserM γ)
    (head : α) : ParserM (CallWrap α β γ) := fun s =>
  let (k, s₁) := Expr.peekRightKind s
  match k with
  | .localCall =>
    match localTail head s₁ with
    | (.ok b, s₂) => (.ok (.localCall b), s₂)
    | (.error e, s₂) => (.error e, s₂)
  | .remoteCall =>
    match remoteTail head s₁ with
    | (.ok c, s₂) => (.ok (.remoteCall c), s₂)
    | (.error e, s₂) => (.error e, s₂)
  | .none => (.ok (.plain head), s₁)

-- Generic grammar combinators (src/cst/primitives.rs) ---------------------------

/-- Modelled from the spec: the older `TokenReader` that
`src/cst/primitives.rs` is written against (its definition is outside
`src/`): a fixed token sequence with a cursor, `position()` returning the
token index of the next unconsumed token.  Speculation is by saving and
restoring the cursor. -/
structure TokenReader where
  tokens : List Token
  pos : Nat
  deriving DecidableEq, Repr

/-- A parse routine against the older `TokenReader`. -/
def TParser (α : Type) : Type :=
  TokenReader → Except PError (α × TokenReader)

/-- Modelled from the spec: `try_parse` — run a parse, restoring the reader
position when it fails (§4.1 `attempt`). -/
def tryParse (f : TParser α) (r : TokenReader) : Option α × TokenReader :=
  match f r with
  | .ok (a, r') => (some a, r')
  | .error _ => (none, r)

/-- One of the unit symbol structs of the `symbols` module (`Comma`,
`Semicolon`, `OpenSquare`, …): it records the token index of the symbol it
consumed; its span is that one token. -/
structure SymbolTok where
  position : Nat
  deriving DecidableEq, Repr

/-- `token_start` of a symbol struct: its recorded position. -/
def SymbolTok.tokenStart (d : SymbolTok) : Nat := d.position

/-- `token_end` of a symbol struct: one past its recorded position. -/
def SymbolTok.tokenEnd (d : SymbolTok) : Nat := d.position + 1

/-- Modelled from the spec: parsing a specific symbol (`symbols::Comma::parse`
etc., outside `src/`): read the next token and require it to be the given
symbol, per the §4.2 expect contract. -/
def parseSymbolTok (v : Symbol) : TParser SymbolTok := fun r =>
  match r.tokens[r.pos]? with
  | some t =>
    match t with
    | .symbol w _ _ =>
      if w = v then .ok ({ position := r.pos }, { r with pos := r.pos + 1 })
      else .error { kind := .unexpectedToken t }
    | _ => .error { kind := .unexpectedToken t }
  | none => .error { kind := .unexpectedEos }

/-- `SeqItem<T>` (src/cst/primitives.rs:41-45): an element and its optional
trailing comma. -/
structure PSeqItem (α : Type) where
  item : α
  delimiter : Option SymbolTok
  deriving DecidableEq, Repr

/-- `SeqItem::parse` (src/cst/primitives.rs:46-54). -/
def PSeqItem.parse (p : TParser α) : TParser (PSeqItem α) := fun r =>
  match p r with
  | .error e => .error e
  | .ok (x, r₁) =>
    match tryParse (parseSymbolTok .comma) r₁ with
    | (d, r₂) => .ok ({ item := x, delimiter := d }, r₂)

/-- `SeqItem` spans (src/cst/primitives.rs:55-65), parameterized by the
element's `TokenRange` impl. -/
def PSeqItem.tokenStart (tstart : α → Nat) (x : PSeqItem α) : Nat :=
  tstart x.item

/-- `SeqItem::token_end`: the delimiter's end when present, else the
element's end. -/
def PSeqItem.tokenEnd (tend : α → Nat) (x : PSeqItem α) : Nat :=
  match x.delimiter with
  | some d => d.tokenEnd
  | none => tend x.item

/-- `Seq<T>` (src/cst/primitives.rs:8-12): the non-empty comma-separated
sequence combinator. -/
structure PSeq (α : Type) where
  position : Nat
  items : List (PSeqItem α)
  deriving DecidableEq, Repr

/-- The `loop` of `Seq::parse` (src/cst/primitives.rs:19-26), with explicit
fuel standing for the Rust loop (the fuel supplied by `PSeq.parse` exceeds
any possible number of iterations on a strictly-consuming element parser). -/
def PSeq.loop (p : TParser α) : Nat → TParser (List (PSeqItem α))
  | 0 => fun _ => .error { kind := .other }
  | fuel + 1 => fun r =>
    match PSeqItem.parse p r with
    | .error e => .error e
    | .ok (x, r₁) =>
      if x.delimiter.isNone then .ok ([x], r₁)
      else
        match PSeq.loop p fuel r₁ with
        | .error e => .error e
        | .ok (xs, r₂) => .ok (x :: xs, r₂)

/-- `Seq::parse` (src/cst/primitives.rs:13-29): record the position, then
parse items until one has no trailing comma. -/
def PSeq.parse (p : TParser α) : TParser (PSeq α) := fun r =>
  match PSeq.loop p (r.tokens.length + 1) r with
  | .error e => .error e
  | .ok (items, r') => .ok ({ position := r.pos, items := items }, r')

/-- `Seq::token_start` (src/cst/primitives.rs:33-35): the recorded
position. -/
def PSeq.tokenStart (sq : PSeq α) : Nat := sq.position

/-- `Seq::token_end` (src/cst/primitives.rs:36-38):
`self.items.last().expect("Non empty").token_end()` (the Rust code panics on
an empty item list, which `parse` never produces; modelled with junk 0). -/
def PSeq.tokenEnd (tend : α → Nat) (sq : PSeq α) : Nat :=
  match sq.items.getLast? with
  | some x => x.tokenEnd tend
  | none => 0

/-- `Clause<T>` (src/cst/primitives.rs:100-104): a clause and its optional
trailing semicolon. -/
structure PClause (α : Type) where
  clause : α
  delimiter : Option SymbolTok
  deriving DecidableEq, Repr

/-- `Clause::parse` (src/cst/primitives.rs:105-113). -/
def PClause.parse (p : TParser α) : TParser (PClause α) := fun r =>
  match p r with
  | .error e => .error e
  | .ok (x, r₁) =>
    match tryParse (parseSymbolTok .semicolon) r₁ with
    | (d, r₂) => .ok ({ clause := x, delimiter := d }, r₂)

/-- `Clause` spans (src/cst/primitives.rs:114-124). -/
def PClause.tokenStart (tstart : α → Nat) (c : PClause α) : Nat :=
  tstart c.clause

/-- `Clause::token_end`: the delimiter's end when present, else the
clause's end. -/
def PClause.tokenEnd (tend : α → Nat) (c : PClause α) : Nat :=
  match c.delimiter with
  | some d => d.tokenEnd
  | none => tend c.clause

/-- `Clauses<T>` (src/cst/primitives.rs:67-71): the semicolon-separated
clause-sequence combinator. -/
structure PClauses (α : Type) where
  position : Nat
  clauses : List (PClause α)
  deriving DecidableEq, Repr

/-- The `loop` of `Clauses::parse` (src/cst/primitives.rs:78-85), with
explicit fuel standing for the Rust loop. -/
def PClauses.loop (p : TParser α) : Nat → TParser (List (PClause α))
  | 0 => fun _ => .error { kind := .other }
  | fuel + 1 => fun r =>
    match PClause.parse p r with
    | .error e => .error e
    | .ok (c, r₁) =>
      if c.delimiter.isNone then .ok ([c], r₁)
      else
        match PClauses.loop p fuel r₁ with
        | .error e => .error e
        | .ok (cs, r₂) => .ok (c :: cs, r₂)

/-- `Clauses::parse` (src/cst/primitives.rs:72-88). -/
def PClauses.parse (p : TParser α) : TParser (PClauses α) := fun r =>
  match PClauses.loop p (r.tokens.length + 1) r with
  | .error e => .error e
  | .ok (cs, r') => .ok ({ position := r.pos, clauses := cs }, r')

/-- `Clauses::token_start` (src/cst/primitives.rs:92-94). -/
def PClauses.tokenStart (cl : PClauses α) : Nat := cl.position

/-- `Clauses::token_end` (src/cst/primitives.rs:95-97):
`self.clauses.last().map_or(self.position, |c| c.token_end())`. -/
def PClauses.tokenEnd (tend : α → Nat) (cl : PClauses α) : Nat :=
  match cl.clauses.getLast? with
  | some c => c.tokenEnd tend
  | none => cl.position

/-- `ListElement<T>` (src/cst/primitives.rs:171-175). -/
structure PListElem (α : Type) where
  value : α
  delimiter : Option SymbolTok
  deriving DecidableEq, Repr

/-- `ListElement::parse` (src/cst/primitives.rs:176-184). -/
def PListElem.parse (p : TParser α) : TParser (PListElem α) := fun r =>
  match p r with
  | .error e => .error e
  | .ok (x, r₁) =>
    match tryParse (parseSymbolTok .comma) r₁ with
    | (d, r₂) => .ok ({ value := x, delimiter := d }, r₂)

/-- `List<T>` (src/cst/primitives.rs:127-132): the bracketed-list
combinator (`openTok` stands for the `open` field, a Lean keyword). -/
structure PList (α : Type) where
  openTok : SymbolTok
  elements : List (PListElem α)
  close : SymbolTok
  deriving DecidableEq, Repr

/-- The element `loop` of `List::parse` (src/cst/primitives.rs:146-153),
with explicit fuel standing for the Rust loop. -/
def PList.loop (p : TParser α) : Nat → TParser (List (PListElem α))
  | 0 => fun _ => .error { kind := .other }
  | fuel + 1 => fun r =>
    match PListElem.parse p r with
    | .error e => .error e
    | .ok (x, r₁) =>
      if x.delimiter.isNone then .ok ([x], r₁)
      else
        match PList.loop p fuel r₁ with
        | .error e => .error e
        | .ok (xs, r₂) => .ok (x :: xs, r₂)

/-- `List::parse` (src/cst/primitives.rs:133-161): opening bracket; if a
closing bracket immediately follows, an empty list; otherwise elements then
the closing bracket. -/
def PList.parse (p : TParser α) : TParser (PList α) := fun r =>
  match parseSymbolTok .openSquare r with
  | .error e => .error e
  | .ok (op, r₁) =>
    match tryParse (parseSymbolTok .closeSquare) r₁ with
    | (some cl, r₂) => .ok ({ openTok := op, elements := [], close := cl }, r₂)
    | (none, r₂) =>
      match PList.loop p (r₂.tokens.length + 1) r₂ with
      | .error e => .error e
      | .ok (es, r₃) =>
        match parseSymbolTok .closeSquare r₃ with
        | .error e => .error e
        | .ok (cl, r₄) =>
          .ok ({ openTok := op, elements := es, close := cl }, r₄)

/-- `List` spans (src/cst/primitives.rs:162-169): the opening bracket's
start to the closing bracket's end. -/
def PList.tokenStart (l : PList α) : Nat := l.openTok.tokenStart

/-- `List::token_end`: the closing bracket's end. -/
def PList.tokenEnd (l : PList α) : Nat := l.close.tokenEnd

/-- `Arg<T>` (src/cst/primitives.rs:234-238). -/
structure PArg (α : Type) where
  arg : α
  delimiter : Option SymbolTok
  deriving DecidableEq, Repr

/-- `Arg::parse` (src/cst/primitives.rs:239-247). -/
def PArg.parse (p : TParser α) : TParser (PArg α) := fun r =>
  match p r with
  | .error e => .error e
  | .ok (x, r₁) =>
    match tryParse (parseSymbolTok .comma) r₁ with
    | (d, r₂) => .ok ({ arg := x, delimiter := d }, r₂)

/-- `Args<T>` (src/cst/primitives.rs:197-202): the parenthesized
argument-list combinator. -/
structure PArgs (α : Type) where
  openTok : SymbolTok
  args : List (PArg α)
  close : SymbolTok
  deriving DecidableEq, Repr

/-- The argument `loop` of `Args::parse` (src/cst/primitives.rs:213-220),
with explicit fuel standing for the Rust loop. -/
def PArgs.loop (p : TParser α) : Nat → TParser (List (PArg α))
  | 0 => fun _ => .error { kind := .other }
  | fuel + 1 => fun r =>
    match PArg.parse p r with
    | .error e => .error e
    | .ok (a, r₁) =>
      if a.delimiter.isNone then .ok ([a], r₁)
      else
        match PArgs.loop p fuel r₁ with
        | .error e => .error e
        | .ok (as_, r₂) => .ok (a :: as_, r₂)

/-- `Args::parse` (src/cst/primitives.rs:203-224): like `List::parse` with
parentheses. -/
def PArgs.parse (p : TParser α) : TParser (PArgs α) := fun r =>
  match parseSymbolTok .openParen r with
  | .error e => .error e
  | .ok (op, r₁) =>
    match tryParse (parseSymbolTok .closeParen) r₁ with
    | (some cl, r₂) => .ok ({ openTok := op, args := [], close := cl }, r₂)
    | (none, r₂) =>
      match PArgs.loop p (r₂.tokens.length + 1) r₂ with
      | .error e => .error e
      | .ok (as_, r₃) =>
        match parseSymbolTok .closeParen r₃ with
        | .error e => .error e
        | .ok (cl, r₄) => .ok ({ openTok := op, args := as_, close := cl }, r₄)

/-- `Args` spans (src/cst/primitives.rs:225-232). -/
def PArgs.tokenStart (a : PArgs α) : Nat := a.openTok.tokenStart

/-- `Args::token_end`: the closing parenthesis's end. -/
def PArgs.tokenEnd (a : PArgs α) : Nat := a.close.tokenEnd

/-- A parse step is transparent when, run with at least one transaction
open, it preserves the virtual stream, never touches the buffers below the
innermost, and leaves the transaction stack nonempty — the contract every
`Parser`-API composite satisfies, required of a sub-parse for the `peek`
frame property. -/
def Transparent (f : ParserM α) : Prop :=
  ∀ s : Parser, s.transactions ≠ [] →
    (f s).2.virtualStream = s.virtualStream ∧
      (f s).2.transactions.tail = s.transactions.tail ∧
      (f s).2.transactions ≠ []

-- Basic reader/stream lemmas ---------------------------------------------------

theorem Reader.unreadAll_pending (ts : List Token) (r : Reader) :
    (r.unreadAll ts).pending = ts.reverse ++ r.pending ∧
      (r.unreadAll ts).source = r.source := by
  induction ts generalizing r with
  | nil => simp [Reader.unreadAll]
  | cons t rest ih =>
    have h := ih (r.unreadToken t)
    simp [Reader.unreadAll, List.foldl_cons] at h ⊢
    simpa [Reader.unreadToken] using h

theorem Reader.unreadAll_stream (ts : List Token) (r : Reader) :
    (r.unreadAll ts).stream = ts.reverse ++ r.stream := by
  have h := Reader.unreadAll_pending ts r
  simp [Reader.stream, h.1, h.2]

theorem Reader.readToken_stream {r : Reader} {t : Token} {r' : Reader}
    (h : r.readToken = .ok (t, r')) : r.stream = t :: r'.stream := by
  unfold Reader.readToken at h
  cases hp : r.pending with
  | cons a rest =>
    rw [hp] at h
    simp at h
    obtain ⟨ht, hr⟩ := h
    subst ht
    subst hr
    simp [Reader.stream, hp]
  | nil =>
    rw [hp] at h
    cases hs : r.source with
    | nil => rw [hs] at h; simp at h
    | cons a rest =>
      rw [hs] at h
      simp at h
      obtain ⟨ht, hr⟩ := h
      subst ht
      subst hr
      simp [Reader.stream, hp, hs]

theorem Reader.readToken_of_stream {r : Reader} {t : Token} {rest : List Token}
    (h : r.stream = t :: rest) :
    ∃ r', r.readToken = .ok (t, r') ∧ r'.stream = rest := by
  unfold Reader.stream at h
  cases hp : r.pending with
  | cons a tl =>
    rw [hp] at h
    simp at h
    refine ⟨{ r with pending := tl }, ?_, ?_⟩
    · simp [Reader.readToken, hp, h.1]
    · simp [Reader.stream, ← h.2]
  | nil =>
    rw [hp] at h
    simp at h
    cases hs : r.source with
    | nil => rw [hs] at h; simp at h
    | cons a tl =>
      rw [hs] at h
      simp at h
      refine ⟨{ pending := [], source := tl }, ?_, ?_⟩
      · simp [Reader.readToken, hp, hs, h.1]
      · simp [Reader.stream, ← h.2]

-- Virtual-stream preservation ---------------------------------------------------

theorem Parser.nextToken_virtual (s : Parser) (h : s.transactions ≠ []) :
    (Parser.nextToken s).2.virtualStream = s.virtualStream ∧
      (Parser.nextToken s).2.transactions.tail = s.transactions.tail ∧
      (Parser.nextToken s).2.transactions ≠ [] := by
  unfold Parser.nextToken
  cases hr : s.reader.readToken with
  | error e => exact ⟨rfl, rfl, h⟩
  | ok tr =>
    obtain ⟨t, r⟩ := tr
    have hstream : s.reader.stream = t :: r.stream := Reader.readToken_stream hr
    cases htx : s.transactions with
    | nil => exact absurd htx h
    | cons b rest =>
      simp [Parser.virtualStream, Parser.stream, Reader.stream] at hstream ⊢
      simp [stackTokens, hstream, htx]

theorem Parser.startTransaction_virtual (s : Parser) :
    s.startTransaction.virtualStream = s.virtualStream := by
  simp [Parser.startTransaction, Parser.virtualStream, Parser.stream,
    stackTokens]

theorem Parser.abortTransaction_virtual (s : Parser) :
    s.abortTransaction.virtualStream = s.virtualStream ∧
      s.abortTransaction.transactions = s.transactions.tail := by
  unfold Parser.abortTransaction
  cases htx : s.transactions with
  | nil => simp [htx]
  | cons b rest =>
    constructor
    · simp only [Parser.virtualStream, Parser.stream, htx, stackTokens]
      rw [Reader.unreadAll_stream]
      simp
    · simp

theorem Parser.commitTransaction_virtual (s : Parser)
    (h : s.transactions.tail ≠ []) :
    s.commitTransaction.virtualStream = s.virtualStream ∧
      s.commitTransaction.transactions.tail = s.transactions.tail.tail ∧
      s.commitTransaction.transactions ≠ [] := by
  unfold Parser.commitTransaction
  cases htx : s.transactions with
  | nil => rw [htx] at h; exact absurd rfl h
  | cons b rest =>
    cases hr : rest with
    | nil => rw [htx, hr] at h; exact absurd rfl h
    | cons b₂ rest₂ =>
      subst hr
      simp [Parser.virtualStream, Parser.stream, stackTokens, htx]

theorem runOp_preserves (op : Op) (s : Parser) (h : s.transactions ≠ []) :
    (runOp op s).virtualStream = s.virtualStream ∧
      (runOp op s).transactions.tail = s.transactions.tail ∧
      (runOp op s).transactions ≠ [] := by
  induction op generalizing s with
  | read =>
    simp only [runOp]
    exact Parser.nextToken_virtual s h
  | seq a b iha ihb =>
    simp only [runOp]
    have h₁ := iha s h
    have h₂ := ihb (runOp a s) h₁.2.2
    exact ⟨h₂.1.trans h₁.1, h₂.2.1.trans h₁.2.1, h₂.2.2⟩
  | abortedBlock p ih =>
    simp only [runOp]
    have hbegin : s.startTransaction.transactions ≠ [] := by
      simp [Parser.startTransaction]
    have hbody := ih s.startTransaction hbegin
    have habort := Parser.abortTransaction_virtual (runOp p s.startTransaction)
    have htail : (runOp p s.startTransaction).transactions.tail
        = s.transactions := by
      rw [hbody.2.1]; simp [Parser.startTransaction]
    refine ⟨?_, ?_, ?_⟩
    · rw [habort.1, hbody.1, Parser.startTransaction_virtual]
    · rw [habort.2, htail]
    · rw [habort.2, htail]; exact h
  | committedBlock p ih =>
    simp only [runOp]
    have hbegin : s.startTransaction.transactions ≠ [] := by
      simp [Parser.startTransaction]
    have hbody := ih s.startTransaction hbegin
    have htail : (runOp p s.startTransaction).transactions.tail
        = s.transactions := by
      rw [hbody.2.1]; simp [Parser.startTransaction]
    have hcommit := Parser.commitTransaction_virtual (runOp p s.startTransaction)
      (by rw [htail]; exact h)
    refine ⟨?_, ?_, ?_⟩
    · rw [hcommit.1, hbody.1, Parser.startTransaction_virtual]
    · rw [hcommit.2.1, htail]
    · exact hcommit.2.2

-- Transparency of the parser primitives -----------------------------------------

theorem presTrans {s₁ s₂ s₃ : Parser}
    (a : s₂.virtualStream = s₁.virtualStream ∧
      s₂.transactions.tail = s₁.transactions.tail ∧ s₂.transactions ≠ [])
    (b : s₃.virtualStream = s₂.virtualStream ∧
      s₃.transactions.tail = s₂.transactions.tail ∧ s₃.transactions ≠ []) :
    s₃.virtualStream = s₁.virtualStream ∧
      s₃.transactions.tail = s₁.transactions.tail ∧ s₃.transactions ≠ [] :=
  ⟨b.1.trans a.1, b.2.1.trans a.2.1, b.2.2⟩

theorem transparent_pure (a : α) : Transparent (fun s => (.ok a, s)) :=
  fun _ h => ⟨rfl, rfl, h⟩

theorem transparent_nextToken : Transparent Parser.nextToken :=
  Parser.nextToken_virtual

theorem transparent_of_state_eq {f : ParserM α} {g : ParserM β}
    (hst : ∀ s, (g s).2 = (f s).2) (hf : Transparent f) : Transparent g := by
  intro s h
  rw [hst]
  exact hf s h

theorem parseClass_state_eq (K : TokenClass V) (s : Parser) :
    (parseClass K s).2 = (Parser.nextToken s).2 := by
  unfold parseClass
  split
  next e s₁ heq => rw [heq]
  next t s₁ heq =>
    split
    next => rw [heq]
    next => rw [heq]

theorem transparent_parseClass (K : TokenClass V) :
    Transparent (parseClass K) :=
  transparent_of_state_eq (parseClass_state_eq K) transparent_nextToken

theorem expectInner_state_eq (K : TokenClass V) (expected : V) (s : Parser) :
    (Parser.expectInner K expected s).2 = (parseClass K s).2 := by
  unfold Parser.expectInner
  split
  next e s₁ heq => rw [heq]
  next t v s₁ heq =>
    split
    next => rw [heq]
    next => rw [heq]

theorem transparent_expectInner (K : TokenClass V) (expected : V) :
    Transparent (Parser.expectInner K expected) :=
  transparent_of_state_eq
    (fun s => (expectInner_state_eq K expected s).trans (parseClass_state_eq K s))
    transparent_nextToken

theorem transparent_transaction (f : ParserM α) (hf : Transparent f) :
    Transparent (Parser.transaction f) := by
  intro s h
  have hbegin : s.startTransaction.transactions ≠ [] := by
    simp [Parser.startTransaction]
  rcases hfs : f s.startTransaction with ⟨res, s₁⟩
  have hbody := hf s.startTransaction hbegin
  rw [hfs] at hbody
  have htail : s₁.transactions.tail = s.transactions := by
    have := hbody.2.1
    simpa [Parser.startTransaction] using this
  simp only [Parser.transaction, hfs]
  cases res with
  | ok a =>
    have hcommit := Parser.commitTransaction_virtual s₁ (by rw [htail]; exact h)
    refine ⟨?_, ?_, hcommit.2.2⟩
    · rw [hcommit.1, hbody.1, Parser.startTransaction_virtual]
    · rw [hcommit.2.1, htail]
  | error e =>
    have habort := Parser.abortTransaction_virtual s₁
    refine ⟨?_, ?_, ?_⟩
    · rw [habort.1, hbody.1, Parser.startTransaction_virtual]
    · rw [habort.2, htail]
    · rw [habort.2, htail]; exact h

theorem transparent_peek (f : ParserM α) (hf : Transparent f) :
    Transparent (Parser.peek f) := by
  intro s h
  have hbegin : s.startTransaction.transactions ≠ [] := by
    simp [Parser.startTransaction]
  rcases hfs : f s.startTransaction with ⟨res, s₁⟩
  have hbody := hf s.startTransaction hbegin
  rw [hfs] at hbody
  have htail : s₁.transactions.tail = s.transactions := by
    have := hbody.2.1
    simpa [Parser.startTransaction] using this
  simp only [Parser.peek, hfs]
  have habort := Parser.abortTransaction_virtual s₁
  refine ⟨?_, ?_, ?_⟩
  · rw [habort.1, hbody.1, Parser.startTransaction_virtual]
  · rw [habort.2, htail]
  · rw [habort.2, htail]; exact h

theorem transparent_expect (K : TokenClass V) (expected : V) :
    Transparent (Parser.expect K expected) :=
  transparent_transaction _ (transparent_expectInner K expected)

theorem transparent_guess (pU : ParserM Unit) (hU : Transparent pU) :
    Transparent (LeftKind.guess pU) := by
  intro s h
  rcases hnt : Parser.nextToken s with ⟨res, s₁⟩
  have hn := Parser.nextToken_virtual s h
  rw [hnt] at hn
  simp only at hn
  cases res with
  | error e => simp only [LeftKind.guess, hnt]; exact hn
  | ok t =>
    cases t with
    | symbol v ps pe =>
      cases v with
      | openSquare =>
        simp only [LeftKind.guess, hnt]
        rcases hpU : pU s₁ with ⟨r₁, s₂⟩
        have h₂ := hU s₁ hn.2.2
        rw [hpU] at h₂
        simp only at h₂
        cases r₁ with
        | ok u =>
          simp only [hpU]
          rcases hex : Parser.expect symbolClass .doubleVerticalBar s₂
            with ⟨r₂, s₃⟩
          have h₃ := transparent_expect symbolClass .doubleVerticalBar s₂ h₂.2.2
          rw [hex] at h₃
          simp only at h₃
          cases r₂ with
          | ok _ =>
            simp only [hex]
            exact presTrans hn (presTrans h₂ h₃)
          | error _ =>
            simp only [hex]
            exact presTrans hn (presTrans h₂ h₃)
        | error _ =>
          simp only [hpU]
          exact presTrans hn h₂
      | sharp =>
        simp only [LeftKind.guess, hnt]
        rcases hnt₂ : Parser.nextToken s₁ with ⟨res₂, s₂⟩
        have hn₂ := Parser.nextToken_virtual s₁ hn.2.2
        rw [hnt₂] at hn₂
        simp only at hn₂
        cases res₂ with
        | error e =>
          simp only [hnt₂]
          exact presTrans hn hn₂
        | ok t₂ =>
          simp only [hnt₂]
          by_cases ha : t₂.isAtom <;> simp only [ha] <;>
            exact presTrans hn hn₂
      | openBrace => simp only [LeftKind.guess, hnt]; exact hn
      | closeBrace => simp only [LeftKind.guess, hnt]; exact hn
      | openParen => simp only [LeftKind.guess, hnt]; exact hn
      | closeParen => simp only [LeftKind.guess, hnt]; exact hn
      | closeSquare => simp only [LeftKind.guess, hnt]; exact hn
      | colon => simp only [LeftKind.guess, hnt]; exact hn
      | doubleColon => simp only [LeftKind.guess, hnt]; exact hn
      | semicolon => simp only [LeftKind.guess, hnt]; exact hn
      | comma => simp only [LeftKind.guess, hnt]; exact hn
      | doubleVerticalBar => simp only [LeftKind.guess, hnt]; exact hn
      | verticalBar => simp only [LeftKind.guess, hnt]; exact hn
      | matchEq => simp only [LeftKind.guess, hnt]; exact hn
      | slash => simp only [LeftKind.guess, hnt]; exact hn
      | dot => simp only [LeftKind.guess, hnt]; exact hn
      | plus => simp only [LeftKind.guess, hnt]; exact hn
      | hyphen => simp only [LeftKind.guess, hnt]; exact hn
      | rightArrow => simp only [LeftKind.guess, hnt]; exact hn
      | question => simp only [LeftKind.guess, hnt]; exact hn
    | keyword v ps pe =>
      cases v <;> simp only [LeftKind.guess, hnt] <;> exact hn
    | var _ _ _ => simp only [LeftKind.guess, hnt]; exact hn
    | atom _ _ _ => simp only [LeftKind.guess, hnt]; exact hn
    | char _ _ _ => simp only [LeftKind.guess, hnt]; exact hn
    | float _ _ _ => simp only [LeftKind.guess, hnt]; exact hn
    | integer _ _ _ => simp only [LeftKind.guess, hnt]; exact hn
    | str _ _ _ => simp only [LeftKind.guess, hnt]; exact hn

-- The peek frame property ---------------------------------------------------------

theorem peek_frame_general (f : ParserM α) (hf : Transparent f) (s : Parser) :
    (Parser.peek f s).1 = (f s.startTransaction).1 ∧
      (Parser.peek f s).2.stream = s.stream ∧
      (Parser.peek f s).2.transactions = s.transactions := by
  have hbegin : s.startTransaction.transactions ≠ [] := by
    simp [Parser.startTransaction]
  rcases hfs : f s.startTransaction with ⟨res, s₁⟩
  have hbody := hf s.startTransaction hbegin
  rw [hfs] at hbody
  have htail : s₁.transactions.tail = s.transactions := by
    have := hbody.2.1
    simpa [Parser.startTransaction] using this
  have habort := Parser.abortTransaction_virtual s₁
  simp only [Parser.peek, hfs]
  have htx : s₁.abortTransaction.transactions = s.transactions := by
    rw [habort.2, htail]
  refine ⟨?_, ?_, htx⟩
  · trivial
  · have hv : s₁.abortTransaction.virtualStream = s.virtualStream := by
      rw [habort.1, hbody.1, Parser.startTransaction_virtual]
    unfold Parser.virtualStream at hv
    rw [htx] at hv
    exact List.append_cancel_left hv

theorem Parser.startTransaction_stream (s : Parser) :
    s.startTransaction.stream = s.stream := rfl

theorem Reader.readToken_eos {r : Reader} (h : r.stream = []) :
    r.readToken = .error { kind := .unexpectedEos } := by
  have hp : r.pending = [] := by
    have := List.append_eq_nil.mp h
    exact this.1
  have hsrc : r.source = [] := by
    have := List.append_eq_nil.mp h
    exact this.2
  simp [Reader.readToken, hp, hsrc]

theorem Parser.nextToken_eos {s : Parser} (h : s.stream = []) :
    Parser.nextToken s = (.error { kind := .unexpectedEos }, s) := by
  have := Reader.readToken_eos (r := s.reader) h
  simp [Parser.nextToken, this]

theorem Parser.nextToken_of_stream {s : Parser} {t : Token} {rest : List Token}
    (hs : s.stream = t :: rest) :
    ∃ s₁, Parser.nextToken s = (.ok t, s₁) ∧ s₁.stream = rest ∧
      s₁.transactions = (match s.transactions with
        | [] => []
        | b :: bs => (b ++ [t]) :: bs) := by
  obtain ⟨r', hread, hrest⟩ :=
    Reader.readToken_of_stream (show s.reader.stream = t :: rest from hs)
  cases htx : s.transactions with
  | nil =>
    refine ⟨{ reader := r', transactions := [] }, ?_, hrest, by simp⟩
    simp [Parser.nextToken, hread, htx]
  | cons b bs =>
    refine ⟨{ reader := r', transactions := (b ++ [t]) :: bs }, ?_, hrest, by simp⟩
    simp [Parser.nextToken, hread, htx]

-- Claim theorems -----------------------------------------------------------------

/-- C1: Backtracking order invariant.  For every token stream / parser state
and every tree of nested peek/transaction operations that all ultimately
abort (`Op.abortedBlock body`, where `body` freely mixes reads, nested
aborted blocks, and nested blocks that committed into their parent before
the outermost abort), the token sequence observable by subsequent reads
after the outermost abort is identical, in content and order, to the
sequence observable before the operations began — and the transaction stack
is exactly restored.  The mechanism is as the claim states: each abort pops
the innermost buffer and unreads its tokens in reverse consumption order
(`Parser.abortTransaction`), and every token read while a transaction is
open is appended to the innermost buffer (`Parser.nextToken`). -/
theorem backtracking_order_invariant (body : Op) (s : Parser) :
    (runOp (Op.abortedBlock body) s).stream = s.stream ∧
      (runOp (Op.abortedBlock body) s).transactions = s.transactions := by
  have hbegin : s.startTransaction.transactions ≠ [] := by
    simp [Parser.startTransaction]
  have hbody := runOp_preserves body s.startTransaction hbegin
  have habort := Parser.abortTransaction_virtual (runOp body s.startTransaction)
  have htail : (runOp body s.startTransaction).transactions.tail
      = s.transactions := by
    rw [hbody.2.1]; simp [Parser.startTransaction]
  have htx : (runOp (Op.abortedBlock body) s).transactions = s.transactions := by
    simp only [runOp]
    rw [habort.2, htail]
  refine ⟨?_, htx⟩
  have hv : (runOp (Op.abortedBlock body) s).virtualStream = s.virtualStream := by
    simp only [runOp]
    rw [habort.1, hbody.1, Parser.startTransaction_virtual]
  unfold Parser.virtualStream at hv
  rw [htx] at hv
  exact List.append_cancel_left hv

/-- C2: `Parser::peek(f)` returns `f`'s result value unchanged while leaving
the pending token stream (and the whole transaction stack) exactly as it was
before the call, whether `f` succeeds or fails, for every sub-parse `f`
built from the parser API (the transparency hypothesis); in particular the
Phase-1 classification `peek(LeftKind::guess)` performed inside
`Expr::parse` consumes no tokens permanently. -/
theorem peek_frame_effect (f : ParserM α) (hf : Transparent f) (s : Parser)
    (pU : ParserM Unit) (hU : Transparent pU) :
    (Parser.peek f s).1 = (f s.startTransaction).1 ∧
      (Parser.peek f s).2.stream = s.stream ∧
      (Parser.peek f s).2.transactions = s.transactions ∧
      (Parser.peek (LeftKind.guess pU) s).2.stream = s.stream := by
  have h₁ := peek_frame_general f hf s
  have h₂ := peek_frame_general (LeftKind.guess pU) (transparent_guess pU hU) s
  exact ⟨h₁.1, h₁.2.1, h₁.2.2, h₂.2.1⟩

/-- Witness for C2: peeking a token read on the concrete stream `[atom "a"]`
returns the token while leaving the stream and transaction stack intact, and
a peeked Phase-1 classification leaves the stream intact. -/
theorem peek_frame_effect_witness :
    (Parser.peek Parser.nextToken
        { reader := { pending := [], source := [Token.atom "a" 0 1] },
          transactions := [] }).1 = .ok (Token.atom "a" 0 1) ∧
      (Parser.peek Parser.nextToken
        { reader := { pending := [], source := [Token.atom "a" 0 1] },
          transactions := [] }).2.stream = [Token.atom "a" 0 1] ∧
      (Parser.peek (LeftKind.guess (fun s => (.ok (), s)))
        { reader := { pending := [], source := [Token.atom "a" 0 1] },
          transactions := [] }).2.stream = [Token.atom "a" 0 1] := by
  have h := peek_frame_effect Parser.nextToken transparent_nextToken
    { reader := { pending := [], source := [Token.atom "a" 0 1] },
      transactions := [] }
    (fun s => (.ok (), s)) (transparent_pure ())
  refine ⟨?_, ?_, ?_⟩
  · rw [h.1]; rfl
  · rw [h.2.1]; rfl
  · rw [h.2.2.2]; rfl

/-- C5: Expect mismatch atomicity.  For every expected literal value and
every token stream whose next token parses as the requested kind but whose
value differs from the expected one under the kind-specific equality,
`Parser::expect` fails with `InvalidInput` carrying the actual and expected
values, and the pending stream and transaction stack are left exactly as
they were before the call (the consumed token is replayed by the aborted
transaction). -/
theorem expect_mismatch_atomicity (K : TokenClass V) (expected : V)
    (s : Parser) (t : Token) (rest : List Token) (v : V)
    (hs : s.stream = t :: rest) (hp : K.proj t = some v)
    (hne : K.eqv v expected = false) :
    (Parser.expect K expected s).1
        = .error { kind := .invalidInput
                   vals := some (K.inj v, K.inj expected) } ∧
      (Parser.expect K expected s).2.stream = s.stream ∧
      (Parser.expect K expected s).2.transactions = s.transactions := by
  obtain ⟨r', hread, hrest⟩ :=
    Reader.readToken_of_stream (show s.reader.stream = t :: rest from hs)
  have hnt : Parser.nextToken s.startTransaction
      = (.ok t, { reader := r', transactions := [t] :: s.transactions }) := by
    simp [Parser.nextToken, Parser.startTransaction, hread]
  have hpc : parseClass K s.startTransaction
      = (.ok (t, v), { reader := r', transactions := [t] :: s.transactions }) := by
    simp [parseClass, hnt, hp]
  have hev : expectValue K v expected
      = .error { kind := .invalidInput
                 vals := some (K.inj v, K.inj expected) } := by
    simp [expectValue, hne]
  have hinner : Parser.expectInner K expected s.startTransaction
      = (.error { kind := .invalidInput
                  vals := some (K.inj v, K.inj expected) },
         { reader := r', transactions := [t] :: s.transactions }) := by
    simp [Parser.expectInner, hpc, hev]
  have habort : Parser.abortTransaction
      { reader := r', transactions := [t] :: s.transactions }
      = { reader := { r' with pending := t :: r'.pending }
          transactions := s.transactions } := by
    simp [Parser.abortTransaction, Reader.unreadAll, Reader.unreadToken]
  have hfinal : Parser.expect K expected s
      = (.error { kind := .invalidInput
                  vals := some (K.inj v, K.inj expected) },
         { reader := { r' with pending := t :: r'.pending }
           transactions := s.transactions }) := by
    simp only [Parser.expect, Parser.transaction, hinner, habort]
  refine ⟨by rw [hfinal], ?_, by rw [hfinal]⟩
  rw [hfinal, hs]
  have : ({ r' with pending := t :: r'.pending } : Reader).stream
      = t :: r'.stream := by
    simp [Reader.stream]
  simpa [Parser.stream, this] using congrArg (t :: ·) hrest

/-- Witness for C5: expecting keyword `when` where the input provides
keyword `end` fails with `InvalidInput` naming both values and leaves the
stream untouched (the spec §8 example). -/
theorem expect_mismatch_atomicity_witness :
    (Parser.expect keywordClass .kwWhen
        { reader := { pending := [], source := [Token.keyword .kwEnd 0 3] },
          transactions := [] }).1
      = .error { kind := .invalidInput
                 vals := some (.kw .kwEnd, .kw .kwWhen) } ∧
      (Parser.expect keywordClass .kwWhen
        { reader := { pending := [], source := [Token.keyword .kwEnd 0 3] },
          transactions := [] }).2.stream = [Token.keyword .kwEnd 0 3] := by
  have h := expect_mismatch_atomicity keywordClass .kwWhen
    { reader := { pending := [], source := [Token.keyword .kwEnd 0 3] },
      transactions := [] }
    (Token.keyword .kwEnd 0 3) [] .kwEnd rfl rfl (by decide)
  exact ⟨h.1, h.2.1⟩

theorem expectAnyLoop_none_iff (K : TokenClass V) (v : V) (cands : List V)
    (acc : Option PError) :
    expectAnyLoop K v acc cands = none ↔
      ((∃ c ∈ cands, K.eqv v c = true) ∨ (cands = [] ∧ acc = none)) := by
  induction cands generalizing acc with
  | nil => simp [expectAnyLoop]
  | cons c rest ih =>
    by_cases hc : K.eqv v c
    · simp [expectAnyLoop, expectValue, hc]
    · have hc' : K.eqv v c = false := by simpa using hc
      have hval : expectValue K v c
          = .error { kind := .invalidInput
                     vals := some (K.inj v, K.inj c) } := by
        simp [expectValue, hc']
      simp only [expectAnyLoop, hval]
      rw [ih]
      simp [hc']

theorem expectAnyLoop_all_mismatch (K : TokenClass V) (v : V)
    (cands : List V) (lastc : V)
    (h : ∀ c ∈ cands, K.eqv v c = false) (hl : cands.getLast? = some lastc) :
    ∀ acc, expectAnyLoop K v acc cands
      = some { kind := .invalidInput, vals := some (K.inj v, K.inj lastc) } := by
  induction cands with
  | nil => simp at hl
  | cons c rest ih =>
    intro acc
    have hc : K.eqv v c = false := h c (by simp)
    have hval : expectValue K v c
        = .error { kind := .invalidInput
                   vals := some (K.inj v, K.inj c) } := by
      simp [expectValue, hc]
    simp only [expectAnyLoop, hval]
    cases rest with
    | nil =>
      have hcl : c = lastc := by simpa using hl
      subst hcl
      simp [expectAnyLoop]
    | cons c₂ rest₂ =>
      have hrest : (c₂ :: rest₂).getLast? = some lastc := by
        simpa [List.getLast?_cons_cons] using hl
      exact ih (fun x hx => h x (List.mem_cons_of_mem c hx)) hrest acc

theorem expectAnyLoop_stops_at_match (K : TokenClass V) (v : V)
    (pre : List V) (c : V) (post : List V)
    (hpre : ∀ x ∈ pre, K.eqv v x = false) (hc : K.eqv v c = true) :
    ∀ acc, expectAnyLoop K v acc (pre ++ c :: post)
      = expectAnyLoop K v acc (pre ++ [c]) := by
  induction pre with
  | nil =>
    intro acc
    simp [expectAnyLoop, expectValue, hc]
  | cons x xs ih =>
    intro acc
    have hx : K.eqv v x = false := hpre x (by simp)
    have hval : expectValue K v x
        = .error { kind := .invalidInput
                   vals := some (K.inj v, K.inj x) } := by
      simp [expectValue, hx]
    simp only [List.cons_append, expectAnyLoop, hval]
    exact ih (fun y hy => hpre y (List.mem_cons_of_mem x hy)) _

/-- C6: For every non-empty candidate list and a stream whose next token
parses as the requested kind, `Parser::expect_any` succeeds (returning the
parsed token) if and only if some candidate matches the token's value; it
stops at the first matching candidate (the candidates after it are not
compared — the call behaves exactly as with the list truncated after
the first match); and when every candidate mismatches it fails with the
mismatch error produced by the last candidate. -/
theorem expectAny_first_match (K : TokenClass V) (cands : List V)
    (s : Parser) (t : Token) (rest : List Token) (v : V)
    (hs : s.stream = t :: rest) (hp : K.proj t = some v)
    (hne : cands ≠ []) :
    ((Parser.expectAny K cands s).1 = .ok t ↔ ∃ c ∈ cands, K.eqv v c = true) ∧
      (∀ pre c post, cands = pre ++ c :: post →
        (∀ x ∈ pre, K.eqv v x = false) → K.eqv v c = true →
        Parser.expectAny K cands s = Parser.expectAny K (pre ++ [c]) s) ∧
      (∀ lastc, (∀ c ∈ cands, K.eqv v c = false) →
        cands.getLast? = some lastc →
        (Parser.expectAny K cands s).1
          = .error { kind := .invalidInput
                     vals := some (K.inj v, K.inj lastc) }) := by
  obtain ⟨s₁, hnt, hrest, htx⟩ := Parser.nextToken_of_stream hs
  have hpc : parseClass K s = (.ok (t, v), s₁) := by
    simp [parseClass, hnt, hp]
  refine ⟨?_, ?_, ?_⟩
  · constructor
    · intro hok
      by_contra hno
      push_neg at hno
      have hall : ∀ c ∈ cands, K.eqv v c = false := by
        intro c hcmem
        have := hno c hcmem
        simpa using this
      obtain ⟨lastc, hl⟩ : ∃ lastc, cands.getLast? = some lastc :=
        Option.isSome_iff_exists.mp (List.getLast?_isSome.mpr hne)
      have hloop := expectAnyLoop_all_mismatch K v cands lastc hall hl none
      rw [Parser.expectAny, hpc] at hok
      simp [hloop] at hok
    · rintro ⟨c, hcmem, hcv⟩
      have hloop : expectAnyLoop K v none cands = none := by
        rw [expectAnyLoop_none_iff]
        exact Or.inl ⟨c, hcmem, hcv⟩
      rw [Parser.expectAny, hpc]
      simp [hloop]
  · intro pre c post hcands hpre hc
    have hloop := expectAnyLoop_stops_at_match K v pre c post hpre hc none
    rw [Parser.expectAny, Parser.expectAny, hpc, hcands]
    simp only [hloop]
  · intro lastc hall hl
    have hloop := expectAnyLoop_all_mismatch K v cands lastc hall hl none
    rw [Parser.expectAny, hpc]
    simp [hloop]

/-- Witness for C6: with candidates `[;, ,]` against the symbol token `,`,
`expect_any` succeeds on the second candidate; with candidates `[;, |]` it
fails with the mismatch of the last candidate `|`. -/
theorem expectAny_first_match_witness :
    (Parser.expectAny symbolClass [Symbol.semicolon, Symbol.comma]
        { reader := { pending := [Token.symbol .comma 4 5], source := [] },
          transactions := [] }).1 = .ok (Token.symbol .comma 4 5) ∧
      (Parser.expectAny symbolClass [Symbol.semicolon, Symbol.verticalBar]
        { reader := { pending := [Token.symbol .comma 4 5], source := [] },
          transactions := [] }).1
        = .error { kind := .invalidInput
                   vals := some (.sym .comma, .sym .verticalBar) } := by
  have h₁ := expectAny_first_match symbolClass [Symbol.semicolon, Symbol.comma]
    { reader := { pending := [Token.symbol .comma 4 5], source := [] },
      transactions := [] }
    (Token.symbol .comma 4 5) [] .comma rfl rfl (by decide)
  have h₂ := expectAny_first_match symbolClass
    [Symbol.semicolon, Symbol.verticalBar]
    { reader := { pending := [Token.symbol .comma 4 5], source := [] },
      transactions := [] }
    (Token.symbol .comma 4 5) [] .comma rfl rfl (by decide)
  constructor
  · exact h₁.1.mpr ⟨.comma, by decide, by decide⟩
  · exact h₂.2.2 .verticalBar (by decide) (by decide)

/-- C10 (implicit): unlike `Parser::expect`, `Parser::expect_any` does not
run inside a transaction: whatever the outcome (success, or failure because
every candidate mismatched), its final state is exactly the state left by
the initial token parse — the consumed token stays consumed and the pending
stream is not restored; and with an empty candidate list it succeeds
unconditionally, returning the parsed token without comparing anything. -/
theorem expectAny_no_transaction (K : TokenClass V) (cands : List V)
    (s : Parser) (t : Token) (rest : List Token) (v : V)
    (hs : s.stream = t :: rest) (hp : K.proj t = some v) :
    (Parser.expectAny K cands s).2 = (parseClass K s).2 ∧
      (Parser.expectAny K cands s).2.stream = rest ∧
      (Parser.expectAny K cands s).2.stream ≠ s.stream ∧
      (Parser.expectAny K [] s).1 = .ok t := by
  obtain ⟨s₁, hnt, hrest, htx⟩ := Parser.nextToken_of_stream hs
  have hpc : parseClass K s = (.ok (t, v), s₁) := by
    simp [parseClass, hnt, hp]
  have hstate : (Parser.expectAny K cands s).2 = s₁ := by
    rw [Parser.expectAny, hpc]
    cases hl : expectAnyLoop K v none cands <;> simp [hl]
  refine ⟨?_, ?_, ?_, ?_⟩
  · rw [hstate, hpc]
  · rw [hstate]; exact hrest
  · rw [hstate, hrest, hs]
    intro hcontra
    exact List.cons_ne_self t rest hcontra.symm
  · rw [Parser.expectAny, hpc]
    simp [expectAnyLoop]

/-- Witness for C10: reading the symbol `,` through `expect_any` with the
single non-matching candidate `;` fails yet leaves the token consumed
(empty stream afterwards), and the empty candidate list succeeds. -/
theorem expectAny_no_transaction_witness :
    (Parser.expectAny symbolClass [Symbol.semicolon]
        { reader := { pending := [Token.symbol .comma 4 5], source := [] },
          transactions := [] }).2.stream = [] ∧
      (Parser.expectAny symbolClass []
        { reader := { pending := [Token.symbol .comma 4 5], source := [] },
          transactions := [] }).1 = .ok (Token.symbol .comma 4 5) := by
  have h := expectAny_no_transaction symbolClass [Symbol.semicolon]
    { reader := { pending := [Token.symbol .comma 4 5], source := [] },
      transactions := [] }
    (Token.symbol .comma 4 5) [] .comma rfl rfl
  exact ⟨h.2.1, h.2.2.2⟩

/-- C3: Phase-1 classification by `LeftKind::guess`.  The next token
determines the shape: `{` tuple, `(` parenthesized, `begin` block, `catch`
catch, a variable token variable; `[` gives list-comprehension when the
speculative element parse and the following `||` expect both succeed and
plain list otherwise; `#` gives record when the token after it is an atom
and map otherwise; any other symbol or keyword fails `UnexpectedToken`
carrying that token; any other token gives literal. -/
theorem leftKind_guess_classification (pU : ParserM Unit) (s : Parser) :
    (∀ ps pe rest, s.stream = Token.symbol .openBrace ps pe :: rest →
        (LeftKind.guess pU s).1 = .ok .tuple) ∧
    (∀ ps pe rest, s.stream = Token.symbol .openParen ps pe :: rest →
        (LeftKind.guess pU s).1 = .ok .parenthesized) ∧
    (∀ ps pe rest, s.stream = Token.keyword .kwBegin ps pe :: rest →
        (LeftKind.guess pU s).1 = .ok .block) ∧
    (∀ ps pe rest, s.stream = Token.keyword .kwCatch ps pe :: rest →
        (LeftKind.guess pU s).1 = .ok .catchShape) ∧
    (∀ nm ps pe rest, s.stream = Token.var nm ps pe :: rest →
        (LeftKind.guess pU s).1 = .ok .variableShape) ∧
    (∀ t rest, s.stream = t :: rest → t.isLiteral = true →
        (LeftKind.guess pU s).1 = .ok .literal) ∧
    (∀ v ps pe rest, s.stream = Token.symbol v ps pe :: rest →
        v ≠ .openBrace → v ≠ .openParen → v ≠ .openSquare → v ≠ .sharp →
        (LeftKind.guess pU s).1
          = .error { kind := .unexpectedToken (Token.symbol v ps pe) }) ∧
    (∀ v ps pe rest, s.stream = Token.keyword v ps pe :: rest →
        v ≠ .kwBegin → v ≠ .kwCatch →
        (LeftKind.guess pU s).1
          = .error { kind := .unexpectedToken (Token.keyword v ps pe) }) ∧
    (∀ ps pe rest s₁ t₂ rest₂,
        Parser.nextToken s = (.ok (Token.symbol .sharp ps pe), s₁) →
        s.stream = Token.symbol .sharp ps pe :: rest →
        s₁.stream = t₂ :: rest₂ →
        (LeftKind.guess pU s).1
          = .ok (if t₂.isAtom then .record else .map)) ∧
    (∀ ps pe rest s₁ u s₂ tok s₃,
        Parser.nextToken s = (.ok (Token.symbol .openSquare ps pe), s₁) →
        s.stream = Token.symbol .openSquare ps pe :: rest →
        pU s₁ = (.ok u, s₂) →
        Parser.expect symbolClass .doubleVerticalBar s₂ = (.ok tok, s₃) →
        (LeftKind.guess pU s).1 = .ok .listComprehension) ∧
    (∀ ps pe rest s₁ e s₂,
        Parser.nextToken s = (.ok (Token.symbol .openSquare ps pe), s₁) →
        s.stream = Token.symbol .openSquare ps pe :: rest →
        pU s₁ = (.error e, s₂) →
        (LeftKind.guess pU s).1 = .ok .list) ∧
    (∀ ps pe rest s₁ u s₂ e s₃,
        Parser.nextToken s = (.ok (Token.symbol .openSquare ps pe), s₁) →
        s.stream = Token.symbol .openSquare ps pe :: rest →
        pU s₁ = (.ok u, s₂) →
        Parser.expect symbolClass .doubleVerticalBar s₂ = (.error e, s₃) →
        (LeftKind.guess pU s).1 = .ok .list) := by
  refine ⟨?_, ?_, ?_, ?_, ?_, ?_, ?_, ?_, ?_, ?_, ?_, ?_⟩
  · intro ps pe rest hs
    obtain ⟨s₁, hnt, _, _⟩ := Parser.nextToken_of_stream hs
    simp [LeftKind.guess, hnt]
  · intro ps pe rest hs
    obtain ⟨s₁, hnt, _, _⟩ := Parser.nextToken_of_stream hs
    simp [LeftKind.guess, hnt]
  · intro ps pe rest hs
    obtain ⟨s₁, hnt, _, _⟩ := Parser.nextToken_of_stream hs
    simp [LeftKind.guess, hnt]
  · intro ps pe rest hs
    obtain ⟨s₁, hnt, _, _⟩ := Parser.nextToken_of_stream hs
    simp [LeftKind.guess, hnt]
  · intro nm ps pe rest hs
    obtain ⟨s₁, hnt, _, _⟩ := Parser.nextToken_of_stream hs
    simp [LeftKind.guess, hnt]
  · intro t rest hs hlit
    obtain ⟨s₁, hnt, _, _⟩ := Parser.nextToken_of_stream hs
    cases t <;> simp [Token.isLiteral] at hlit <;> simp [LeftKind.guess, hnt]
  · intro v ps pe rest hs h₁ h₂ h₃ h₄
    obtain ⟨s₁, hnt, _, _⟩ := Parser.nextToken_of_stream hs
    cases v <;>
      first
      | exact absurd rfl h₁
      | exact absurd rfl h₂
      | exact absurd rfl h₃
      | exact absurd rfl h₄
      | simp [LeftKind.guess, hnt]
  · intro v ps pe rest hs h₁ h₂
    obtain ⟨s₁, hnt, _, _⟩ := Parser.nextToken_of_stream hs
    cases v <;>
      first
      | exact absurd rfl h₁
      | exact absurd rfl h₂
      | simp [LeftKind.guess, hnt]
  · intro ps pe rest s₁ t₂ rest₂ hnt hs hs₂
    obtain ⟨s₂, hnt₂, _, _⟩ := Parser.nextToken_of_stream hs₂
    by_cases ha : t₂.isAtom <;> simp [LeftKind.guess, hnt, hnt₂, ha]
  · intro ps pe rest s₁ u s₂ tok s₃ hnt hs hpU hex
    simp [LeftKind.guess, hnt, hpU, hex]
  · intro ps pe rest s₁ e s₂ hnt hs hpU
    simp [LeftKind.guess, hnt, hpU]
  · intro ps pe rest s₁ u s₂ e s₃ hnt hs hpU hex
    simp [LeftKind.guess, hnt, hpU, hex]

/-- Witness for C3: on concrete streams, `{` classifies as tuple, `#` before
an atom classifies as record, and `[` followed by a successful speculative
parse and a `||` classifies as list-comprehension. -/
theorem leftKind_guess_classification_witness :
    (LeftKind.guess (fun s => (.ok (), s))
        { reader := { pending := [], source := [Token.symbol .openBrace 0 1] },
          transactions := [] }).1 = .ok .tuple ∧
      (LeftKind.guess (fun s => (.ok (), s))
        { reader := { pending := [],
                      source := [Token.symbol .sharp 0 1,
                                 Token.atom "foo" 1 4] },
          transactions := [] }).1 = .ok .record ∧
      (LeftKind.guess (fun s => (.ok (), s))
        { reader := { pending := [],
                      source := [Token.symbol .openSquare 0 1,
                                 Token.symbol .doubleVerticalBar 1 3] },
          transactions := [] }).1 = .ok .listComprehension := by
  refine ⟨?_, ?_, ?_⟩
  · exact (leftKind_guess_classification (fun s => (.ok (), s)) _).1 0 1 [] rfl
  · have h := (leftKind_guess_classification (fun s => (.ok (), s))
      { reader := { pending := [],
                    source := [Token.symbol .sharp 0 1, Token.atom "foo" 1 4] },
        transactions := [] }).2.2.2.2.2.2.2.2.1
      0 1 [Token.atom "foo" 1 4]
      { reader := { pending := [], source := [Token.atom "foo" 1 4] },
        transactions := [] }
      (Token.atom "foo" 1 4) [] rfl rfl rfl
    simpa using h
  · exact (leftKind_guess_classification (fun s => (.ok (), s))
      { reader := { pending := [],
                    source := [Token.symbol .openSquare 0 1,
                               Token.symbol .doubleVerticalBar 1 3] },
        transactions := [] }).2.2.2.2.2.2.2.2.2.1
      0 1 [Token.symbol .doubleVerticalBar 1 3]
      { reader := { pending := [],
                    source := [Token.symbol .doubleVerticalBar 1 3] },
        transactions := [] }
      () { reader := { pending := [],
                       source := [Token.symbol .doubleVerticalBar 1 3] },
           transactions := [] }
      (Token.symbol .doubleVerticalBar 1 3)
      { reader := { pending := [], source := [] }, transactions := [] }
      rfl rfl rfl rfl

theorem rightGuess_pres (s : Parser) (h : s.transactions ≠ []) :
    (RightKind.guess s).2.virtualStream = s.virtualStream ∧
      (RightKind.guess s).2.transactions.tail = s.transactions.tail ∧
      (RightKind.guess s).2.transactions ≠ [] := by
  rcases hnt : Parser.nextToken s with ⟨res, s₁⟩
  have hn := Parser.nextToken_virtual s h
  rw [hnt] at hn
  simp only at hn
  cases res with
  | error e => simp only [RightKind.guess, hnt]; exact hn
  | ok t =>
    cases t with
    | symbol v ps pe =>
      cases v <;> simp only [RightKind.guess, hnt] <;> exact hn
    | atom _ _ _ => simp only [RightKind.guess, hnt]; exact hn
    | char _ _ _ => simp only [RightKind.guess, hnt]; exact hn
    | float _ _ _ => simp only [RightKind.guess, hnt]; exact hn
    | integer _ _ _ => simp only [RightKind.guess, hnt]; exact hn
    | str _ _ _ => simp only [RightKind.guess, hnt]; exact hn
    | var _ _ _ => simp only [RightKind.guess, hnt]; exact hn
    | keyword _ _ _ => simp only [RightKind.guess, hnt]; exact hn

theorem peekRightKind_frame (s : Parser) :
    (Expr.peekRightKind s).2.stream = s.stream ∧
      (Expr.peekRightKind s).2.transactions = s.transactions := by
  have hbegin : s.startTransaction.transactions ≠ [] := by
    simp [Parser.startTransaction]
  rcases hg : RightKind.guess s.startTransaction with ⟨k, s₁⟩
  have hbody := rightGuess_pres s.startTransaction hbegin
  rw [hg] at hbody
  simp only at hbody
  have htail : s₁.transactions.tail = s.transactions := by
    have := hbody.2.1
    simpa [Parser.startTransaction] using this
  have habort := Parser.abortTransaction_virtual s₁
  simp only [Expr.peekRightKind, hg]
  have htx : s₁.abortTransaction.transactions = s.transactions := by
    rw [habort.2, htail]
  refine ⟨?_, htx⟩
  have hv : s₁.abortTransaction.virtualStream = s.virtualStream := by
    rw [habort.1, hbody.1, Parser.startTransaction_virtual]
  unfold Parser.virtualStream at hv
  rw [htx] at hv
  exact List.append_cancel_left hv

/-- C4: Phase-2 call detection.  After the primary has been committingly
parsed, exactly one further token is examined under a peek
(`Expr.peekRightKind`), which never fails and restores the stream and
transaction stack; symbol `(` classifies as local call and symbol `:` as
remote call, and then `Expr::parse` wraps the primary as the
callee / module qualifier of the corresponding call node via the committing
tail parse; any other next token — or end of stream — classifies as none
and the primary is returned unwrapped. -/
theorem rightKind_call_detection (localTail : α → ParserM β)
    (remoteTail : α → ParserM γ) (head : α) (s : Parser) :
    ((Expr.peekRightKind s).2.stream = s.stream ∧
      (Expr.peekRightKind s).2.transactions = s.transactions) ∧
    (∀ ps pe rest, s.stream = Token.symbol .openParen ps pe :: rest →
      (Expr.peekRightKind s).1 = .localCall) ∧
    (∀ ps pe rest, s.stream = Token.symbol .colon ps pe :: rest →
      (Expr.peekRightKind s).1 = .remoteCall) ∧
    (∀ t rest, s.stream = t :: rest →
      (∀ ps pe, t ≠ Token.symbol Symbol.openParen ps pe) →
      (∀ ps pe, t ≠ Token.symbol Symbol.colon ps pe) →
      (Expr.peekRightKind s).1 = .none) ∧
    (s.stream = [] → (Expr.peekRightKind s).1 = .none) ∧
    (∀ b s₂, (Expr.peekRightKind s).1 = .localCall →
      localTail head (Expr.peekRightKind s).2 = (.ok b, s₂) →
      Expr.parsePhase2 localTail remoteTail head s = (.ok (.localCall b), s₂)) ∧
    (∀ c s₂, (Expr.peekRightKind s).1 = .remoteCall →
      remoteTail head (Expr.peekRightKind s).2 = (.ok c, s₂) →
      Expr.parsePhase2 localTail remoteTail head s
        = (.ok (.remoteCall c), s₂)) ∧
    ((Expr.peekRightKind s).1 = .none →
      Expr.parsePhase2 localTail remoteTail head s
        = (.ok (.plain head), (Expr.peekRightKind s).2)) := by
  refine ⟨peekRightKind_frame s, ?_, ?_, ?_, ?_, ?_, ?_, ?_⟩
  · intro ps pe rest hs
    obtain ⟨s₁, hnt, _, _⟩ := Parser.nextToken_of_stream
      (s := s.startTransaction) hs
    simp [Expr.peekRightKind, RightKind.guess, hnt]
  · intro ps pe rest hs
    obtain ⟨s₁, hnt, _, _⟩ := Parser.nextToken_of_stream
      (s := s.startTransaction) hs
    simp [Expr.peekRightKind, RightKind.guess, hnt]
  · intro t rest hs h₁ h₂
    obtain ⟨s₁, hnt, _, _⟩ := Parser.nextToken_of_stream
      (s := s.startTransaction) hs
    cases t with
    | symbol v ps pe =>
      cases v <;>
        first
        | exact absurd rfl (h₁ _ _)
        | exact absurd rfl (h₂ _ _)
        | simp [Expr.peekRightKind, RightKind.guess, hnt]
    | atom _ _ _ => simp [Expr.peekRightKind, RightKind.guess, hnt]
    | char _ _ _ => simp [Expr.peekRightKind, RightKind.guess, hnt]
    | float _ _ _ => simp [Expr.peekRightKind, RightKind.guess, hnt]
    | integer _ _ _ => simp [Expr.peekRightKind, RightKind.guess, hnt]
    | str _ _ _ => simp [Expr.peekRightKind, RightKind.guess, hnt]
    | var _ _ _ => simp [Expr.peekRightKind, RightKind.guess, hnt]
    | keyword _ _ _ => simp [Expr.peekRightKind, RightKind.guess, hnt]
  · intro hs
    have hnt := Parser.nextToken_eos (s := s.startTransaction) hs
    simp [Expr.peekRightKind, RightKind.guess, hnt]
  · intro b s₂ hk hlt
    rcases hpk : Expr.peekRightKind s with ⟨k, s₁⟩
    rw [hpk] at hk hlt
    simp only at hk hlt
    subst hk
    simp [Expr.parsePhase2, hpk, hlt]
  · intro c s₂ hk hrt
    rcases hpk : Expr.peekRightKind s with ⟨k, s₁⟩
    rw [hpk] at hk hrt
    simp only at hk hrt
    subst hk
    simp [Expr.parsePhase2, hpk, hrt]
  · intro hk
    rcases hpk : Expr.peekRightKind s with ⟨k, s₁⟩
    rw [hpk] at hk
    simp only at hk
    subst hk
    simp [Expr.parsePhase2, hpk]

/-- Witness for C4: on the concrete stream `( )` the detection step
classifies local call and wraps the head through the tail parse; on the
stream `end` (no call syntax) the head is returned unwrapped with the
stream preserved. -/
theorem rightKind_call_detection_witness :
    Expr.parsePhase2 (fun n => fun st => (.ok (n + 1), st))
        (fun n => fun st => (.ok (n + 2), st)) 7
        { reader := { pending := [], source := [Token.symbol .openParen 5 6] },
          transactions := [] }
      = (.ok (.localCall 8),
         { reader := { pending := [Token.symbol .openParen 5 6], source := [] },
           transactions := [] }) ∧
      Expr.parsePhase2 (fun n => fun st => (.ok (n + 1), st))
        (fun n => fun st => (.ok (n + 2), st)) 7
        { reader := { pending := [], source := [Token.keyword .kwEnd 5 8] },
          transactions := [] }
      = (.ok (.plain 7),
         { reader := { pending := [Token.keyword .kwEnd 5 8], source := [] },
           transactions := [] }) := by
  have h₁ := rightKind_call_detection (α := Nat) (β := Nat) (γ := Nat)
    (fun n => fun st => (.ok (n + 1), st))
    (fun n => fun st => (.ok (n + 2), st)) 7
    { reader := { pending := [], source := [Token.symbol .openParen 5 6] },
      transactions := [] }
  have h₂ := rightKind_call_detection (α := Nat) (β := Nat) (γ := Nat)
    (fun n => fun st => (.ok (n + 1), st))
    (fun n => fun st => (.ok (n + 2), st)) 7
    { reader := { pending := [], source := [Token.keyword .kwEnd 5 8] },
      transactions := [] }
  constructor
  · exact h₁.2.2.2.2.2.1 8
      { reader := { pending := [Token.symbol .openParen 5 6], source := [] },
        transactions := [] }
      (h₁.2.1 5 6 [] rfl) rfl
  · have := h₂.2.2.2.2.2.2.2
      (h₂.2.2.2.1 (Token.keyword .kwEnd 5 8) [] rfl
        (by intro ps pe hcon; cases hcon)
        (by intro ps pe hcon; cases hcon))
    simpa using this

-- Combinator lemmas (old TokenReader model) ---------------------------------------

theorem seqLoop_ne_nil {p : TParser α} {fuel : Nat} {r : TokenReader}
    {xs : List (PSeqItem α)} {r' : TokenReader}
    (h : PSeq.loop p fuel r = .ok (xs, r')) : xs ≠ [] := by
  cases fuel with
  | zero => simp [PSeq.loop] at h
  | succ n =>
    simp only [PSeq.loop] at h
    cases hi : PSeqItem.parse p r with
    | error e => rw [hi] at h; simp at h
    | ok xr =>
      obtain ⟨x, r₁⟩ := xr
      rw [hi] at h
      simp only at h
      by_cases hd : x.delimiter.isNone
      · rw [if_pos hd] at h
        simp at h
        rw [← h.1]
        simp
      · rw [if_neg hd] at h
        cases hl : PSeq.loop p n r₁ with
        | error e => rw [hl] at h; simp at h
        | ok xsr =>
          obtain ⟨xs₂, r₂⟩ := xsr
          rw [hl] at h
          simp at h
          rw [← h.1]
          simp

theorem clausesLoop_ne_nil {p : TParser α} {fuel : Nat} {r : TokenReader}
    {cs : List (PClause α)} {r' : TokenReader}
    (h : PClauses.loop p fuel r = .ok (cs, r')) : cs ≠ [] := by
  cases fuel with
  | zero => simp [PClauses.loop] at h
  | succ n =>
    simp only [PClauses.loop] at h
    cases hi : PClause.parse p r with
    | error e => rw [hi] at h; simp at h
    | ok xr =>
      obtain ⟨c, r₁⟩ := xr
      rw [hi] at h
      simp only at h
      by_cases hd : c.delimiter.isNone
      · rw [if_pos hd] at h
        simp at h
        rw [← h.1]
        simp
      · rw [if_neg hd] at h
        cases hl : PClauses.loop p n r₁ with
        | error e => rw [hl] at h; simp at h
        | ok xsr =>
          obtain ⟨cs₂, r₂⟩ := xsr
          rw [hl] at h
          simp at h
          rw [← h.1]
          simp

/-- C7: At-least-one invariant.  Every successfully parsed `Seq` and
`Clauses` contains at least one element, and when the first element's parse
fails (for example on an empty stream) `Seq::parse` and `Clauses::parse`
fail with that error rather than returning an empty collection. -/
theorem seq_clauses_at_least_one (p : TParser α) (q : TParser β) :
    (∀ r sq r', PSeq.parse p r = .ok (sq, r') → sq.items ≠ []) ∧
    (∀ r cl r', PClauses.parse q r = .ok (cl, r') → cl.clauses ≠ []) ∧
    (∀ r e, p r = .error e → PSeq.parse p r = .error e) ∧
    (∀ r e, q r = .error e → PClauses.parse q r = .error e) := by
  refine ⟨?_, ?_, ?_, ?_⟩
  · intro r sq r' h
    simp only [PSeq.parse] at h
    cases hl : PSeq.loop p (r.tokens.length + 1) r with
    | error e => rw [hl] at h; simp at h
    | ok xsr =>
      obtain ⟨xs, r₂⟩ := xsr
      rw [hl] at h
      simp at h
      have := seqLoop_ne_nil hl
      rw [← h.1]
      simpa using this
  · intro r cl r' h
    simp only [PClauses.parse] at h
    cases hl : PClauses.loop q (r.tokens.length + 1) r with
    | error e => rw [hl] at h; simp at h
    | ok xsr =>
      obtain ⟨cs, r₂⟩ := xsr
      rw [hl] at h
      simp at h
      have := clausesLoop_ne_nil hl
      rw [← h.1]
      simpa using this
  · intro r e hp
    have hitem : PSeqItem.parse p r = .error e := by
      simp [PSeqItem.parse, hp]
    simp [PSeq.parse, PSeq.loop, hitem]
  · intro r e hq
    have hitem : PClause.parse q r = .error e := by
      simp [PClause.parse, hq]
    simp [PClauses.parse, PClauses.loop, hitem]

/-- Witness for C7: with a comma-symbol element parser, a one-token stream
parses to a one-item `Seq` (nonempty), and the empty stream makes both
`Seq::parse` and `Clauses::parse` fail with `UnexpectedEos`. -/
theorem seq_clauses_at_least_one_witness :
    ({ position := 0,
       items := [{ item := { position := 0 }, delimiter := none }] }
        : PSeq SymbolTok).items ≠ [] ∧
      PSeq.parse (parseSymbolTok .comma) { tokens := [], pos := 0 }
        = .error { kind := .unexpectedEos } ∧
      PClauses.parse (parseSymbolTok .comma) { tokens := [], pos := 0 }
        = .error { kind := .unexpectedEos } := by
  have h := seq_clauses_at_least_one (parseSymbolTok .comma)
    (parseSymbolTok .comma)
  refine ⟨?_, ?_, ?_⟩
  · exact h.1 { tokens := [Token.symbol .comma 0 1], pos := 0 } _
      { tokens := [Token.symbol .comma 0 1], pos := 1 } rfl
  · exact h.2.2.1 { tokens := [], pos := 0 } { kind := .unexpectedEos } rfl
  · exact h.2.2.2 { tokens := [], pos := 0 } { kind := .unexpectedEos } rfl

theorem parseSymbolTok_start {v : Symbol} {r : TokenReader} {a : SymbolTok}
    {ra : TokenReader} (h : parseSymbolTok v r = .ok (a, ra)) :
    a.position = r.pos := by
  unfold parseSymbolTok at h
  cases ht : r.tokens[r.pos]? with
  | none => rw [ht] at h; simp at h
  | some t =>
    rw [ht] at h
    cases t with
    | symbol w ps pe =>
      by_cases hw : w = v
      · simp [hw] at h
        rw [← h.1]
      · simp [hw] at h
    | atom _ _ _ => simp at h
    | char _ _ _ => simp at h
    | float _ _ _ => simp at h
    | integer _ _ _ => simp at h
    | str _ _ _ => simp at h
    | var _ _ _ => simp at h
    | keyword _ _ _ => simp at h

theorem PSeqItem.parse_item {p : TParser α} {r : TokenReader}
    {x : PSeqItem α} {r₁ : TokenReader}
    (h : PSeqItem.parse p r = .ok (x, r₁)) :
    ∃ ra, p r = .ok (x.item, ra) := by
  unfold PSeqItem.parse at h
  cases hp : p r with
  | error e => rw [hp] at h; simp at h
  | ok ar =>
    obtain ⟨a, ra⟩ := ar
    rw [hp] at h
    simp at h
    obtain ⟨hx, hr⟩ := h
    subst hx
    exact ⟨ra, rfl⟩

theorem PClause.parse_clause {p : TParser α} {r : TokenReader}
    {c : PClause α} {r₁ : TokenReader}
    (h : PClause.parse p r = .ok (c, r₁)) :
    ∃ ra, p r = .ok (c.clause, ra) := by
  unfold PClause.parse at h
  cases hp : p r with
  | error e => rw [hp] at h; simp at h
  | ok ar =>
    obtain ⟨a, ra⟩ := ar
    rw [hp] at h
    simp at h
    obtain ⟨hx, hr⟩ := h
    subst hx
    exact ⟨ra, rfl⟩

theorem seqLoop_first {p : TParser α} {fuel : Nat} {r : TokenReader}
    {xs : List (PSeqItem α)} {r' : TokenReader}
    (h : PSeq.loop p fuel r = .ok (xs, r')) :
    ∃ x xs₂ r₁, xs = x :: xs₂ ∧ PSeqItem.parse p r = .ok (x, r₁) := by
  cases fuel with
  | zero => simp [PSeq.loop] at h
  | succ n =>
    simp only [PSeq.loop] at h
    cases hi : PSeqItem.parse p r with
    | error e => rw [hi] at h; simp at h
    | ok xr =>
      obtain ⟨x, r₁⟩ := xr
      rw [hi] at h
      simp only at h
      by_cases hd : x.delimiter.isNone
      · rw [if_pos hd] at h
        simp at h
        refine ⟨x, [], r₁, ?_, rfl⟩
        rw [← h.1]
      · rw [if_neg hd] at h
        cases hl : PSeq.loop p n r₁ with
        | error e => rw [hl] at h; simp at h
        | ok xsr =>
          obtain ⟨xs₂, r₂⟩ := xsr
          rw [hl] at h
          simp at h
          refine ⟨x, xs₂, r₁, ?_, rfl⟩
          rw [← h.1]

theorem seqLoop_last {p : TParser α} {fuel : Nat} {r : TokenReader}
    {xs : List (PSeqItem α)} {r' : TokenReader}
    (h : PSeq.loop p fuel r = .ok (xs, r')) :
    ∃ xl, xs.getLast? = some xl ∧ xl.delimiter = none := by
  induction fuel generalizing r xs r' with
  | zero => simp [PSeq.loop] at h
  | succ n ih =>
    simp only [PSeq.loop] at h
    cases hi : PSeqItem.parse p r with
    | error e => rw [hi] at h; simp at h
    | ok xr =>
      obtain ⟨x, r₁⟩ := xr
      rw [hi] at h
      simp only at h
      by_cases hd : x.delimiter.isNone
      · rw [if_pos hd] at h
        simp at h
        refine ⟨x, ?_, Option.isNone_iff_eq_none.mp hd⟩
        rw [← h.1]
        rfl
      · rw [if_neg hd] at h
        cases hl : PSeq.loop p n r₁ with
        | error e => rw [hl] at h; simp at h
        | ok xsr =>
          obtain ⟨xs₂, r₂⟩ := xsr
          rw [hl] at h
          simp at h
          obtain ⟨xl, hgl, hdel⟩ := ih hl
          have hne := seqLoop_ne_nil hl
          refine ⟨xl, ?_, hdel⟩
          rw [← h.1]
          cases xs₂ with
          | nil => exact absurd rfl hne
          | cons y ys => rw [List.getLast?_cons_cons]; exact hgl

theorem clausesLoop_first {p : TParser α} {fuel : Nat} {r : TokenReader}
    {cs : List (PClause α)} {r' : TokenReader}
    (h : PClauses.loop p fuel r = .ok (cs, r')) :
    ∃ c cs₂ r₁, cs = c :: cs₂ ∧ PClause.parse p r = .ok (c, r₁) := by
  cases fuel with
  | zero => simp [PClauses.loop] at h
  | succ n =>
    simp only [PClauses.loop] at h
    cases hi : PClause.parse p r with
    | error e => rw [hi] at h; simp at h
    | ok xr =>
      obtain ⟨c, r₁⟩ := xr
      rw [hi] at h
      simp only at h
      by_cases hd : c.delimiter.isNone
      · rw [if_pos hd] at h
        simp at h
        refine ⟨c, [], r₁, ?_, rfl⟩
        rw [← h.1]
      · rw [if_neg hd] at h
        cases hl : PClauses.loop p n r₁ with
        | error e => rw [hl] at h; simp at h
        | ok xsr =>
          obtain ⟨cs₂, r₂⟩ := xsr
          rw [hl] at h
          simp at h
          refine ⟨c, cs₂, r₁, ?_, rfl⟩
          rw [← h.1]

theorem clausesLoop_last {p : TParser α} {fuel : Nat} {r : TokenReader}
    {cs : List (PClause α)} {r' : TokenReader}
    (h : PClauses.loop p fuel r = .ok (cs, r')) :
    ∃ cL, cs.getLast? = some cL ∧ cL.delimiter = none := by
  induction fuel generalizing r cs r' with
  | zero => simp [PClauses.loop] at h
  | succ n ih =>
    simp only [PClauses.loop] at h
    cases hi : PClause.parse p r with
    | error e => rw [hi] at h; simp at h
    | ok xr =>
      obtain ⟨c, r₁⟩ := xr
      rw [hi] at h
      simp only at h
      by_cases hd : c.delimiter.isNone
      · rw [if_pos hd] at h
        simp at h
        refine ⟨c, ?_, Option.isNone_iff_eq_none.mp hd⟩
        rw [← h.1]
        rfl
      · rw [if_neg hd] at h
        cases hl : PClauses.loop p n r₁ with
        | error e => rw [hl] at h; simp at h
        | ok xsr =>
          obtain ⟨cs₂, r₂⟩ := xsr
          rw [hl] at h
          simp at h
          obtain ⟨cL, hgl, hdel⟩ := ih hl
          have hne := clausesLoop_ne_nil hl
          refine ⟨cL, ?_, hdel⟩
          rw [← h.1]
          cases cs₂ with
          | nil => exact absurd rfl hne
          | cons y ys => rw [List.getLast?_cons_cons]; exact hgl

/-- C8: Combinator span equations.  For every successfully parsed combinator
node (with a position-faithful element parser: the element reports as its
start the reader position where its parse began): `Seq`/`Clauses` span from
the first element's start to the last element's end, and `List`/`Args` span
from the opening delimiter's start to the closing delimiter's end. -/
theorem combinator_span_equations (p : TParser α) (tstart tend : α → Nat)
    (hstart : ∀ r a ra, p r = .ok (a, ra) → tstart a = r.pos) :
    (∀ r sq r' x xs₂, PSeq.parse p r = .ok (sq, r') → sq.items = x :: xs₂ →
        PSeq.tokenStart sq = PSeqItem.tokenStart tstart x) ∧
    (∀ r sq r' xl, PSeq.parse p r = .ok (sq, r') →
        sq.items.getLast? = some xl →
        PSeq.tokenEnd tend sq = tend xl.item) ∧
    (∀ r cl r' c cs₂, PClauses.parse p r = .ok (cl, r') →
        cl.clauses = c :: cs₂ →
        PClauses.tokenStart cl = PClause.tokenStart tstart c) ∧
    (∀ r cl r' cL, PClauses.parse p r = .ok (cl, r') →
        cl.clauses.getLast? = some cL →
        PClauses.tokenEnd tend cl = tend cL.clause) ∧
    (∀ l : PList α, PList.tokenStart l = l.openTok.tokenStart ∧
        PList.tokenEnd l = l.close.tokenEnd) ∧
    (∀ a : PArgs α, PArgs.tokenStart a = a.openTok.tokenStart ∧
        PArgs.tokenEnd a = a.close.tokenEnd) := by
  refine ⟨?_, ?_, ?_, ?_, fun l => ⟨rfl, rfl⟩, fun a => ⟨rfl, rfl⟩⟩
  · intro r sq r' x xs₂ h hitems
    simp only [PSeq.parse] at h
    cases hl : PSeq.loop p (r.tokens.length + 1) r with
    | error e => rw [hl] at h; simp at h
    | ok xsr =>
      obtain ⟨xs, r₂⟩ := xsr
      rw [hl] at h
      simp at h
      obtain ⟨x₀, xs₀, r₁, hxs, hitem⟩ := seqLoop_first hl
      obtain ⟨ra, hpr⟩ := PSeqItem.parse_item hitem
      have hx : x = x₀ := by
        have : sq.items = xs := by rw [← h.1]
        rw [hitems, hxs] at this
        exact (List.cons.injEq _ _ _ _ ▸ this).1
      have hpos : PSeq.tokenStart sq = r.pos := by
        rw [← h.1]; rfl
      rw [hpos, hx, PSeqItem.tokenStart, hstart r x₀.item ra hpr]
  · intro r sq r' xl h hlast
    simp only [PSeq.parse] at h
    cases hl : PSeq.loop p (r.tokens.length + 1) r with
    | error e => rw [hl] at h; simp at h
    | ok xsr =>
      obtain ⟨xs, r₂⟩ := xsr
      rw [hl] at h
      simp at h
      obtain ⟨xl₀, hgl, hdel⟩ := seqLoop_last hl
      have hitems : sq.items = xs := by rw [← h.1]
      rw [hitems] at hlast
      rw [hgl] at hlast
      have hx : xl = xl₀ := by simpa using hlast.symm
      subst hx
      unfold PSeq.tokenEnd
      rw [hitems, hgl]
      simp [PSeqItem.tokenEnd, hdel]
  · intro r cl r' c cs₂ h hcs
    simp only [PClauses.parse] at h
    cases hl : PClauses.loop p (r.tokens.length + 1) r with
    | error e => rw [hl] at h; simp at h
    | ok xsr =>
      obtain ⟨cs, r₂⟩ := xsr
      rw [hl] at h
      simp at h
      obtain ⟨c₀, cs₀, r₁, hxs, hitem⟩ := clausesLoop_first hl
      obtain ⟨ra, hpr⟩ := PClause.parse_clause hitem
      have hc : c = c₀ := by
        have : cl.clauses = cs := by rw [← h.1]
        rw [hcs, hxs] at this
        exact (List.cons.injEq _ _ _ _ ▸ this).1
      have hpos : PClauses.tokenStart cl = r.pos := by
        rw [← h.1]; rfl
      rw [hpos, hc, PClause.tokenStart, hstart r c₀.clause ra hpr]
  · intro r cl r' cL h hlast
    simp only [PClauses.parse] at h
    cases hl : PClauses.loop p (r.tokens.length + 1) r with
    | error e => rw [hl] at h; simp at h
    | ok xsr =>
      obtain ⟨cs, r₂⟩ := xsr
      rw [hl] at h
      simp at h
      obtain ⟨cL₀, hgl, hdel⟩ := clausesLoop_last hl
      have hcs : cl.clauses = cs := by rw [← h.1]
      rw [hcs] at hlast
      rw [hgl] at hlast
      have hc : cL = cL₀ := by simpa using hlast.symm
      subst hc
      unfold PClauses.tokenEnd
      rw [hcs, hgl]
      simp [PClause.tokenEnd, hdel]

/-- Witness for C8: a one-comma `Seq` (element parser = the comma symbol,
whose `token_start` is the reader position) spans from its single element's
start to its single element's end, and a concrete `List`/`Args` node spans
from its opening to its closing delimiter. -/
theorem combinator_span_equations_witness :
    PSeq.tokenStart
        ({ position := 0,
           items := [{ item := { position := 0 }, delimiter := none }] }
          : PSeq SymbolTok)
      = PSeqItem.tokenStart SymbolTok.tokenStart
          { item := { position := 0 }, delimiter := none } ∧
      PSeq.tokenEnd SymbolTok.tokenEnd
        ({ position := 0,
           items := [{ item := { position := 0 }, delimiter := none }] }
          : PSeq SymbolTok)
      = SymbolTok.tokenEnd { position := 0 } ∧
      PList.tokenStart
        ({ openTok := { position := 3 }, elements := [],
           close := { position := 4 } } : PList SymbolTok)
      = SymbolTok.tokenStart { position := 3 } := by
  have h := combinator_span_equations (parseSymbolTok .comma)
    SymbolTok.tokenStart SymbolTok.tokenEnd
    (fun r a ra hp => parseSymbolTok_start hp)
  refine ⟨?_, ?_, ?_⟩
  · exact h.1 { tokens := [Token.symbol .comma 0 1], pos := 0 } _
      { tokens := [Token.symbol .comma 0 1], pos := 1 }
      { item := { position := 0 }, delimiter := none } [] rfl rfl
  · exact h.2.1 { tokens := [Token.symbol .comma 0 1], pos := 0 } _
      { tokens := [Token.symbol .comma 0 1], pos := 1 }
      { item := { position := 0 }, delimiter := none } rfl rfl
  · have hl := h.2.2.2.2.1
      { openTok := { position := 3 }, elements := [], close := { position := 4 } }
    exact hl.1

/-- C9: Delimiter symmetry.  On a stream whose next two tokens are an
opening bracket immediately followed by the matching closing bracket,
`List::parse` and `Args::parse` succeed with zero elements, consume exactly
the two delimiter tokens, and the result does not depend on the element
parser (no element or trailing-comma parse runs). -/
theorem delimiter_symmetry (p : TParser α) (q : TParser β)
    (r rq : TokenReader) (ps pe ps₂ pe₂ qs qe qs₂ qe₂ : Nat)
    (h1 : r.tokens[r.pos]? = some (Token.symbol .openSquare ps pe))
    (h2 : r.tokens[r.pos + 1]? = some (Token.symbol .closeSquare ps₂ pe₂))
    (h3 : rq.tokens[rq.pos]? = some (Token.symbol .openParen qs qe))
    (h4 : rq.tokens[rq.pos + 1]? = some (Token.symbol .closeParen qs₂ qe₂)) :
    PList.parse p r
        = .ok ({ openTok := { position := r.pos }, elements := [],
                 close := { position := r.pos + 1 } },
               { r with pos := r.pos + 2 }) ∧
      PArgs.parse q rq
        = .ok ({ openTok := { position := rq.pos }, args := [],
                 close := { position := rq.pos + 1 } },
               { rq with pos := rq.pos + 2 }) := by
  constructor
  · have hop : parseSymbolTok .openSquare r
        = .ok ({ position := r.pos }, { r with pos := r.pos + 1 }) := by
      simp [parseSymbolTok, h1]
    have hcl : parseSymbolTok .closeSquare { r with pos := r.pos + 1 }
        = .ok ({ position := r.pos + 1 }, { r with pos := r.pos + 2 }) := by
      simp [parseSymbolTok, h2]
    simp [PList.parse, hop, tryParse, hcl]
  · have hop : parseSymbolTok .openParen rq
        = .ok ({ position := rq.pos }, { rq with pos := rq.pos + 1 }) := by
      simp [parseSymbolTok, h3]
    have hcl : parseSymbolTok .closeParen { rq with pos := rq.pos + 1 }
        = .ok ({ position := rq.pos + 1 }, { rq with pos := rq.pos + 2 }) := by
      simp [parseSymbolTok, h4]
    simp [PArgs.parse, hop, tryParse, hcl]

/-- Witness for C9: on the concrete streams `[ ]` and `( )` both combinators
yield zero elements, consuming exactly the two delimiters, whatever the
element parser. -/
theorem delimiter_symmetry_witness :
    PList.parse (parseSymbolTok .comma)
        { tokens := [Token.symbol .openSquare 0 1,
                     Token.symbol .closeSquare 1 2], pos := 0 }
      = .ok ({ openTok := { position := 0 }, elements := [],
               close := { position := 1 } },
             { tokens := [Token.symbol .openSquare 0 1,
                          Token.symbol .closeSquare 1 2], pos := 2 }) ∧
      PArgs.parse (parseSymbolTok .comma)
        { tokens := [Token.symbol .openParen 0 1,
                     Token.symbol .closeParen 1 2], pos := 0 }
      = .ok ({ openTok := { position := 0 }, args := [],
               close := { position := 1 } },
             { tokens := [Token.symbol .openParen 0 1,
                          Token.symbol .closeParen 1 2], pos := 2 }) := by
  have h := delimiter_symmetry (parseSymbolTok .comma) (parseSymbolTok .comma)
    { tokens := [Token.symbol .openSquare 0 1,
                 Token.symbol .closeSquare 1 2], pos := 0 }
    { tokens := [Token.symbol .openParen 0 1,
                 Token.symbol .closeParen 1 2], pos := 0 }
    0 1 1 2 0 1 1 2 rfl rfl rfl rfl
  exact h

end Erl
